import Mathlib

/-!
# Verification of the `externref` WASM post-processor

A shallow embedding of the core of the `externref` repository: the signature
codec recorded in a custom WASM section (`src/signature.rs`), the synthesized
reference-table functions (`src/processor/functions.rs`), the guard
verifier, and the signature & body rewriter (`crates/lib/src/processor/state.rs`),
together with theorems settling the frozen claims about them.

Machine words are modelled as `Nat` with explicit truncation (`% 2 ^ 32`)
where the source truncates; byte strings are `List Nat`; fallible code
returns `Except`; the Rust `unwrap`-style panics that the source can hit are
modelled as a distinguished outcome.
-/

namespace Externref

/-- `u32::MAX`, the sentinel index denoting a null reference (`-1` as `i32`). -/
def MAX_WORD : Nat := 2 ^ 32 - 1

/-! ## Signature codec (`src/signature.rs`)

Names are UTF-8 byte strings, modelled as lists of bytes. -/

/-- Byte strings: the payload of the custom section and all names in it. -/
abbrev Bytes := List Nat

/-- `FunctionKind` from `src/signature.rs`: an exported function, or a
function imported from the module with the given name. -/
inductive FunctionKind where
  | exported
  | imported (moduleName : Bytes)
  deriving DecidableEq, Repr

/-- `BitSlice` from `src/signature.rs`: a slice of bits stored least
significant bit first in a byte array. -/
structure BitSlice where
  bytes : List Nat
  bitLen : Nat
  deriving DecidableEq, Repr

/-- `BitSlice::is_set`. The source indexes `self.bytes[idx / 8]`, which in all
uses (`set_indices`, bounded by `bit_len`) is in range; out-of-range reads are
modelled with a `0` default. -/
def BitSlice.is_set (s : BitSlice) (idx : Nat) : Bool :=
  if idx > s.bitLen then false
  else decide (s.bytes.getD (idx / 8) 0 &&& (1 <<< (idx % 8)) > 0)

/-- `BitSlice::set_indices`: indices of the set bits, in ascending order. -/
def BitSlice.set_indices (s : BitSlice) : List Nat :=
  (List.range s.bitLen).filter fun idx => s.is_set idx

/-- `ReadErrorKind` from `src/error.rs`. -/
inductive ReadErrorKind where
  | unexpectedEof
  | utf8
  deriving DecidableEq, Repr

/-- `ReadError` from `src/error.rs`: a kind plus human-readable context. -/
structure ReadError where
  kind : ReadErrorKind
  context : String
  deriving DecidableEq, Repr

/-- `read_u32` from `src/signature.rs`: little-endian `u32`, consuming
4 bytes. -/
def read_u32 (buffer : Bytes) (context : String) : Except ReadError (Nat × Bytes) :=
  if buffer.length < 4 then
    .error ⟨.unexpectedEof, context⟩
  else
    .ok (buffer.getD 0 0 + 256 * buffer.getD 1 0 + 256 ^ 2 * buffer.getD 2 0
          + 256 ^ 3 * buffer.getD 3 0,
        buffer.drop 4)

/-- UTF-8 validity of a byte sequence per RFC 3629; this is the acceptance
predicate of Rust's `str::from_utf8` used by `read_str`. -/
def validUtf8 : Bytes → Bool
  | [] => true
  | b :: rest =>
    if b ≤ 0x7F then validUtf8 rest
    else if 0xC2 ≤ b ∧ b ≤ 0xDF then
      match rest with
      | c1 :: rest' => decide (0x80 ≤ c1 ∧ c1 ≤ 0xBF) && validUtf8 rest'
      | [] => false
    else if b = 0xE0 then
      match rest with
      | c1 :: c2 :: rest' =>
        decide (0xA0 ≤ c1 ∧ c1 ≤ 0xBF) && decide (0x80 ≤ c2 ∧ c2 ≤ 0xBF) && validUtf8 rest'
      | _ => false
    else if (0xE1 ≤ b ∧ b ≤ 0xEC) ∨ b = 0xEE ∨ b = 0xEF then
      match rest with
      | c1 :: c2 :: rest' =>
        decide (0x80 ≤ c1 ∧ c1 ≤ 0xBF) && decide (0x80 ≤ c2 ∧ c2 ≤ 0xBF) && validUtf8 rest'
      | _ => false
    else if b = 0xED then
      match rest with
      | c1 :: c2 :: rest' =>
        decide (0x80 ≤ c1 ∧ c1 ≤ 0x9F) && decide (0x80 ≤ c2 ∧ c2 ≤ 0xBF) && validUtf8 rest'
      | _ => false
    else if b = 0xF0 then
      match rest with
      | c1 :: c2 :: c3 :: rest' =>
        decide (0x90 ≤ c1 ∧ c1 ≤ 0xBF) && decide (0x80 ≤ c2 ∧ c2 ≤ 0xBF)
          && decide (0x80 ≤ c3 ∧ c3 ≤ 0xBF) && validUtf8 rest'
      | _ => false
    else if 0xF1 ≤ b ∧ b ≤ 0xF3 then
      match rest with
      | c1 :: c2 :: c3 :: rest' =>
        decide (0x80 ≤ c1 ∧ c1 ≤ 0xBF) && decide (0x80 ≤ c2 ∧ c2 ≤ 0xBF)
          && decide (0x80 ≤ c3 ∧ c3 ≤ 0xBF) && validUtf8 rest'
      | _ => false
    else if b = 0xF4 then
      match rest with
      | c1 :: c2 :: c3 :: rest' =>
        decide (0x80 ≤ c1 ∧ c1 ≤ 0x8F) && decide (0x80 ≤ c2 ∧ c2 ≤ 0xBF)
          && decide (0x80 ≤ c3 ∧ c3 ≤ 0xBF) && validUtf8 rest'
      | _ => false
    else false

/-- `read_str` from `src/signature.rs`: length-prefixed UTF-8 string. -/
def read_str (buffer : Bytes) (context : String) : Except ReadError (Bytes × Bytes) :=
  match read_u32 buffer ("length for " ++ context) with
  | .error e => .error e
  | .ok (len, buffer) =>
    if buffer.length < len then .error ⟨.unexpectedEof, context⟩
    else if validUtf8 (buffer.take len) then .ok (buffer.take len, buffer.drop len)
    else .error ⟨.utf8, context⟩

/-- `BitSlice::read_from_section`: bit length then `ceil(bit_len/8)` bytes. -/
def BitSlice.read_from_section (buffer : Bytes) (context : String) :
    Except ReadError (BitSlice × Bytes) :=
  match read_u32 buffer ("length for " ++ context) with
  | .error e => .error e
  | .ok (bitLen, buffer) =>
    let byteLen := (bitLen + 7) / 8
    if buffer.length < byteLen then .error ⟨.unexpectedEof, context⟩
    else .ok (⟨buffer.take byteLen, bitLen⟩, buffer.drop byteLen)

/-- `FunctionKind::read_from_section`: four `0xff` bytes encode `Export`; any
other tag is the length of the import module name that follows. -/
def FunctionKind.read_from_section (buffer : Bytes) :
    Except ReadError (FunctionKind × Bytes) :=
  if buffer.length ≥ 4 ∧ buffer.take 4 = [0xff, 0xff, 0xff, 0xff] then
    .ok (.exported, buffer.drop 4)
  else
    match read_str buffer "module name" with
    | .error e => .error e
    | .ok (moduleName, rest) => .ok (.imported moduleName, rest)

/-- `Function` from `src/signature.rs`: one catalog entry of the custom
section. -/
structure Function where
  kind : FunctionKind
  name : Bytes
  externrefs : BitSlice
  deriving DecidableEq, Repr

/-- `Function::read_from_section`: kind, then name, then bit slice. -/
def Function.read_from_section (buffer : Bytes) : Except ReadError (Function × Bytes) :=
  match FunctionKind.read_from_section buffer with
  | .error e => .error e
  | .ok (kind, buffer) =>
    match read_str buffer "function name" with
    | .error e => .error e
    | .ok (name, buffer) =>
      match BitSlice.read_from_section buffer "externref bit slice" with
      | .error e => .error e
      | .ok (externrefs, buffer) => .ok (⟨kind, name, externrefs⟩, buffer)

/-- Little-endian encoding of a `u32` value, as written by the `write_u32!`
macro in `src/signature.rs`. -/
def u32le (value : Nat) : Bytes :=
  [value % 256, value / 256 % 256, value / 256 ^ 2 % 256, value / 256 ^ 3 % 256]

/-- `FunctionKind::write_to_custom_section`: `u32::MAX` for exports, else the
module-name length (truncated `as u32`) followed by the name bytes. -/
def FunctionKind.write_to_custom_section : FunctionKind → Bytes
  | .exported => u32le (2 ^ 32 - 1)
  | .imported moduleName => u32le (moduleName.length % 2 ^ 32) ++ moduleName

/-- `Function::custom_section`: the byte encoding of one catalog entry. -/
def Function.custom_section (f : Function) : Bytes :=
  f.kind.write_to_custom_section
    ++ u32le (f.name.length % 2 ^ 32) ++ f.name
    ++ u32le (f.externrefs.bitLen % 2 ^ 32) ++ f.externrefs.bytes

/-- `read_u32` consumes exactly four bytes on success. -/
theorem read_u32_ok {buffer : Bytes} {ctx : String} {v : Nat} {rest : Bytes}
    (h : read_u32 buffer ctx = .ok (v, rest)) :
    4 ≤ buffer.length ∧ rest = buffer.drop 4 := by
  unfold read_u32 at h
  split at h
  · cases h
  · next hlen => cases h; exact ⟨Nat.le_of_not_lt hlen, rfl⟩

/-- `read_str` consumes at least four bytes on success. -/
theorem read_str_ok_length {buffer : Bytes} {ctx : String} {name rest : Bytes}
    (h : read_str buffer ctx = .ok (name, rest)) :
    rest.length + 4 ≤ buffer.length := by
  unfold read_str at h
  split at h
  · cases h
  · rename_i len buf hu
    obtain ⟨h4, rfl⟩ := read_u32_ok hu
    split at h
    · cases h
    · split at h
      · cases h
        simp only [List.length_drop]
        omega
      · cases h

/-- `BitSlice::read_from_section` consumes at least four bytes on success. -/
theorem BitSlice.read_bits_length {buffer : Bytes} {ctx : String} {s : BitSlice}
    {rest : Bytes} (h : BitSlice.read_from_section buffer ctx = .ok (s, rest)) :
    rest.length + 4 ≤ buffer.length := by
  unfold BitSlice.read_from_section at h
  split at h
  · cases h
  · rename_i bitLen buf hu
    obtain ⟨h4, rfl⟩ := read_u32_ok hu
    simp only at h
    split at h
    · cases h
    · cases h
      simp only [List.length_drop]
      omega

/-- `FunctionKind::read_from_section` consumes at least four bytes on
success. -/
theorem FunctionKind.read_kind_length {buffer : Bytes} {kind : FunctionKind}
    {rest : Bytes} (h : FunctionKind.read_from_section buffer = .ok (kind, rest)) :
    rest.length + 4 ≤ buffer.length := by
  unfold FunctionKind.read_from_section at h
  split at h
  · next hc =>
    cases h
    simp only [List.length_drop]
    omega
  · split at h
    · cases h
    · rename_i m r hs
      cases h
      exact read_str_ok_length hs

/-- `Function::read_from_section` strictly consumes input on success. -/
theorem Function.read_entry_length {buffer : Bytes} {f : Function} {rest : Bytes}
    (h : Function.read_from_section buffer = .ok (f, rest)) :
    rest.length < buffer.length := by
  unfold Function.read_from_section at h
  split at h
  · cases h
  · rename_i kind b1 hk
    have hk4 := FunctionKind.read_kind_length hk
    split at h
    · cases h
    · rename_i name b2 hn
      have hn4 := read_str_ok_length hn
      split at h
      · cases h
      · rename_i s b3 hb
        have hb4 := BitSlice.read_bits_length hb
        cases h
        omega

/-- `Processor::parse_section` (`crates/lib/src/processor/mod.rs`): reads
catalog entries until the buffer is exhausted. -/
def parse_section (buffer : Bytes) : Except ReadError (List Function) :=
  if buffer = [] then .ok []
  else
    match hr : Function.read_from_section buffer with
    | .error e => .error e
    | .ok (f, rest) =>
      match parse_section rest with
      | .error e => .error e
      | .ok fs => .ok (f :: fs)
termination_by buffer.length
decreasing_by exact Function.read_entry_length hr

/-- A well-formed catalog entry: lengths fit in machine words (`Import` module
names must also not alias the `0xFFFFFFFF` export tag), names are valid UTF-8,
and the bit-set storage is exactly `ceil(bit_len/8)` bytes of byte values, as
produced by `BitSlice::builder`. -/
def Function.WF (f : Function) : Prop :=
  (match f.kind with
    | .exported => True
    | .imported m => m.length < MAX_WORD ∧ validUtf8 m = true) ∧
  f.name.length < 2 ^ 32 ∧ validUtf8 f.name = true ∧
  f.externrefs.bitLen < 2 ^ 32 ∧
  f.externrefs.bytes.length = (f.externrefs.bitLen + 7) / 8 ∧
  ∀ b ∈ f.externrefs.bytes, b < 256

/-! ## Synthesized reference-table functions (`src/processor/functions.rs`)

`PatchedFunctions::patch_insert_fn`, `patch_get_fn` and `patch_drop_fn` build
WASM bytecode operating on the synthesized `externref` table. Their semantics
is modelled denotationally: a table is a list of slots, each holding a live
reference (`some r`) or null (`none`); a function evaluates to `none` when the
bytecode traps. Indices are 32-bit machine words modelled as `Nat`, with the
`i32` constant `-1` represented by its unsigned value `MAX_WORD`. -/

/-- Opaque host references (only identity matters). -/
abbrev Ref := Nat

/-- The synthesized reference table: each slot is null or a live reference. -/
abbrev Table := List (Option Ref)

/-- The free-slot loop emitted by `PatchedFunctions::create_loop`: starting at
index `i` and walking down, return the first index whose slot is null, or the
table size when no slot in `0..=i` is null. -/
def scanFree (table : Table) : Nat → Nat
  | 0 => if table.get? 0 = some none then 0 else table.length
  | i + 1 => if table.get? (i + 1) = some none then i + 1 else scanFree table i

/-- Semantics of the function emitted by `PatchedFunctions::patch_insert_fn`.
`growOk` is whether the host lets `table.grow(1)` succeed; the result is
`none` when the bytecode traps (the `unreachable` after a failed growth, also
reached when the old size aliases `-1`), otherwise the returned `i32` (as an
unsigned word) and the table after the call. -/
def insertFn (value : Option Ref) (growOk : Bool) (table : Table) :
    Option (Nat × Table) :=
  match value with
  | none => some (MAX_WORD, table)
  | some _ =>
    let n := table.length
    let freeIdx := if 0 < n then scanFree table (n - 1) else 0
    if freeIdx = n then
      if growOk ∧ n ≠ MAX_WORD then some (n, table ++ [value]) else none
    else
      some (freeIdx, table.set freeIdx value)

/-- Semantics of the function emitted by `PatchedFunctions::patch_get_fn`:
null for the sentinel index, else `table[idx]` (`table.get` traps when the
index is out of bounds). -/
def getFn (idx : Nat) (table : Table) : Option (Option Ref × Table) :=
  if idx = MAX_WORD then some (none, table)
  else
    match table.get? idx with
    | some slot => some (slot, table)
    | none => none

/-- Semantics of the function emitted by `PatchedFunctions::patch_drop_fn`.
When a drop-notification import is configured (`notify`), the import is called
with `table[idx]` before the slot is cleared; the first component lists the
values passed to the notification, in order. `table.get` / `table.set` trap
when the index is out of bounds. -/
def dropFn (notify : Bool) (idx : Nat) (table : Table) :
    Option (List (Option Ref) × Table) :=
  if h : idx < table.length then
    some (if notify then [table.get ⟨idx, h⟩] else [], table.set idx none)
  else none

/-! ## Errors (`src/processor/error.rs`) -/

/-- WASM value types (walrus `ValType`). -/
inductive ValType where
  | i32
  | i64
  | f32
  | f64
  | v128
  | externref
  | funcref
  deriving DecidableEq, Repr

/-- `Location` from `src/processor/error.rs`: a function argument or a return
type, with its zero-based index. -/
inductive Location where
  | arg (idx : Nat)
  | returnType (idx : Nat)
  deriving DecidableEq, Repr

/-- `Error` from `src/processor/error.rs` (the `Read`/`Wasm` causes are kept
abstract). The spec's names for the variants: `MalformedSection` (`read`),
`UnexpectedImportKind`, `MissingExport` (`noExport`), `UnexpectedExportKind`,
`ArityMismatch` (`unexpectedArity`), `UnexpectedArgumentType`
(`unexpectedType`), `MisplacedGuard` (`incorrectGuard`),
`UnexpectedReferenceCall` (`unexpectedCall`). -/
inductive Error where
  | read (err : ReadError)
  | wasm
  | unexpectedImportType (module : Bytes) (name : Bytes)
  | noExport (name : Bytes)
  | unexpectedExportType (name : Bytes)
  | unexpectedArity (module : Option Bytes) (name : Bytes)
      (expectedArity : Nat) (realArity : Nat)
  | unexpectedType (module : Option Bytes) (name : Bytes)
      (location : Location) (realType : ValType)
  | incorrectGuard (functionName : Option Bytes) (codeOffset : Option Nat)
  | unexpectedCall (functionName : Option Bytes) (codeOffset : Option Nat)
  deriving DecidableEq, Repr

/-! ## Instruction model

The processor visits walrus IR instruction sequences. The rewriting passes
(`GuardRemover`, `RefCallDetector`, `LocalReplacementCounter`,
`LocalReplacer`) dispatch only on call / local / global instructions and treat
everything else uniformly, so the model keeps exactly those shapes. A local
function body is modelled as the arena of its instruction sequences: the entry
sequence followed by the remaining sequences in visitor order, each sequence a
flat list of instructions paired with their optional bytecode offset
(`InstrLocId`). -/

/-- Instruction shapes the processor dispatches on; ids are numeric. -/
inductive Instr where
  | call (func : Nat)
  | localGet (l : Nat)
  | localSet (l : Nat)
  | localTee (l : Nat)
  | globalSet (g : Nat)
  | other
  deriving DecidableEq, Repr

/-- Is this a `global.set` (a shadow-stack pointer adjustment)? -/
def Instr.isGlobalSet : Instr → Bool
  | .globalSet _ => true
  | _ => false

/-- An instruction with its optional WASM bytecode offset. -/
abbrev LocInstr := Instr × Option Nat

/-- One instruction sequence of the walrus arena. -/
abbrev InstrSeq := List LocInstr

/-- A local function body: the entry sequence plus the other sequences of the
arena, in the order the walrus visitors traverse them. -/
structure FnBody where
  entry : InstrSeq
  others : List InstrSeq
  deriving DecidableEq, Repr

/-! ## Guard removal (`src/processor/functions.rs`, `GuardRemover`) -/

/-- `GuardPlacement`: a guard call in an accepted position, or one at the
given bytecode offset in a rejected position. -/
inductive GuardPlacement where
  | correct
  | incorrect (codeOffset : Option Nat)
  deriving DecidableEq, Repr

/-- The derived Rust ordering on `GuardPlacement`:
`Correct < Incorrect(None) < Incorrect(Some k)`, with offsets compared
numerically. -/
def GuardPlacement.le : GuardPlacement → GuardPlacement → Bool
  | .correct, _ => true
  | .incorrect _, .correct => false
  | .incorrect none, .incorrect _ => true
  | .incorrect (some _), .incorrect none => false
  | .incorrect (some x), .incorrect (some y) => x ≤ y

/-- `cmp::max` under `GuardPlacement.le` (returns the second argument when
equal, as Rust's `max` does). -/
def GuardPlacement.max (a b : GuardPlacement) : GuardPlacement :=
  if a.le b then b else a

/-- `GuardRemover::add_placement`:
`self.placement = cmp::max(self.placement, Some(placement))`, using the
derived `Option` ordering (`None < Some _`). -/
def addPlacement (cur : Option GuardPlacement) (p : GuardPlacement) :
    Option GuardPlacement :=
  match cur with
  | none => some p
  | some c => some (c.max p)

/-- `GuardRemover::start_instr_seq_mut`: scan one instruction sequence,
removing calls to the guard and classifying each one. `idx` is the position
in the original sequence and `prevGS` whether the previous original
instruction was a `global.set` (`maybe_set_stack_ptr`). Returns the retained
instructions and the accumulated placement. -/
def guardScanSeq (guardId : Nat) (isEntry : Bool) :
    InstrSeq → Nat → Bool → Option GuardPlacement →
    InstrSeq × Option GuardPlacement
  | [], _, _, acc => ([], acc)
  | (instr, loc) :: rest, idx, prevGS, acc =>
    let placement : Option GuardPlacement :=
      match instr with
      | .call f =>
        if f = guardId then
          some (if isEntry ∧ (idx = 0 ∨ prevGS) then .correct else .incorrect loc)
        else none
      | _ => none
    let acc' := match placement with
      | some p => addPlacement acc p
      | none => acc
    let (rest', accF) :=
      guardScanSeq guardId isEntry rest (idx + 1) instr.isGlobalSet acc'
    (match placement with
      | none => (instr, loc) :: rest'
      | some _ => rest', accF)

/-- `PatchedFunctions::remove_guards`: run the guard scan over every sequence
of the function (the entry sequence flagged as such), then classify the
function from the accumulated placement: no guard → not guarded, correct
placement → guarded, incorrect placement → `IncorrectGuard`.
`guardFoldStep` is one step of the fold over the non-entry sequences. -/
def guardFoldStep (guardId : Nat) (st : List InstrSeq × Option GuardPlacement)
    (seq : InstrSeq) : List InstrSeq × Option GuardPlacement :=
  let r := guardScanSeq guardId false seq 0 false st.2
  (r.1 :: st.1, r.2)

/-- `PatchedFunctions::remove_guards` (see the doc comment above). -/
def remove_guards (guardId : Nat) (functionName : Option Bytes) (body : FnBody) :
    Except Error (Bool × FnBody) :=
  let e := guardScanSeq guardId true body.entry 0 false none
  let f := body.others.foldl (guardFoldStep guardId) ([], e.2)
  match f.2 with
  | none => .ok (false, ⟨e.1, f.1.reverse⟩)
  | some .correct => .ok (true, ⟨e.1, f.1.reverse⟩)
  | some (.incorrect off) => .error (.incorrectGuard functionName off)

/-! ## Type patching (`crates/lib/src/processor/state.rs`) -/

/-- `fn_module`: the module name of an imported catalog entry. -/
def fn_module : FunctionKind → Option Bytes
  | .exported => none
  | .imported m => some m

/-- Outcome of `patch_type_inner`: success, a returned error, or a Rust panic
(an out-of-bounds slice index). -/
inductive PatchResult where
  | ok (params : List ValType) (results : List ValType)
  | err (e : Error)
  | panicked
  deriving DecidableEq, Repr

/-- The per-index loop of `patch_type_inner` over `set_indices`. A marked
position must currently be `i32`; otherwise the source builds
`Error::UnexpectedType` whose `real_type` field reads `new_params[idx]` with
the *global* position `idx` — for a result position that index is out of
bounds and the Rust code panics rather than returning the error. -/
def patchLoop (module : Option Bytes) (name : Bytes) :
    List Nat → List ValType → List ValType → PatchResult
  | [], newParams, newResults => .ok newParams newResults
  | idx :: rest, newParams, newResults =>
    let placement :=
      if idx < newParams.length then newParams.getD idx .i32
      else newResults.getD (idx - newParams.length) .i32
    if placement ≠ .i32 then
      let location :=
        if idx < newParams.length then Location.arg idx
        else Location.returnType (idx - newParams.length)
      match newParams.get? idx with
      | some realType => .err (.unexpectedType module name location realType)
      | none => .panicked
    else
      if idx < newParams.length then
        patchLoop module name rest (newParams.set idx .externref) newResults
      else
        patchLoop module name rest newParams
          (newResults.set (idx - newParams.length) .externref)

/-- `patch_type_inner`: check the arity against the bit-set length, then
replace each marked position (currently `i32`) by `externref`. -/
def patch_type_inner (params results : List ValType) (function : Function) :
    PatchResult :=
  if params.length + results.length ≠ function.externrefs.bitLen then
    .err (.unexpectedArity (fn_module function.kind) function.name
      function.externrefs.bitLen (params.length + results.length))
  else
    patchLoop (fn_module function.kind) function.name
      function.externrefs.set_indices params results

/-! ## Call-site detection (`RefCallDetector`) -/

/-- Allocation state of `RefCallDetector`: the next fresh local id and the
`new_locals` map from each newly-allocated `externref` local to the `i32`
local it replaces (most recent first). -/
structure DetectState where
  nextLocal : Nat
  newLocals : List (Nat × Nat)
  deriving DecidableEq, Repr

/-- `RefCallDetector::start_instr_seq_mut`: scan one sequence with the
"reference on top of the operand stack" flag. While the flag is set, a
`local.set` / `local.tee` is redirected to a fresh `externref` local
(`local.set` clears the flag, `local.tee` keeps it); any other instruction
resets the flag to whether it is a call to a reference-returning function. -/
def detectSeq (returnsRef : Nat → Bool) :
    InstrSeq → Bool → DetectState → InstrSeq × DetectState
  | [], _, st => ([], st)
  | (instr, loc) :: rest, refTop, st =>
    match instr, refTop with
    | .localSet l, true =>
      let n := st.nextLocal
      let (rest', stF) := detectSeq returnsRef rest false ⟨n + 1, (n, l) :: st.newLocals⟩
      ((.localSet n, loc) :: rest', stF)
    | .localTee l, true =>
      let n := st.nextLocal
      let (rest', stF) := detectSeq returnsRef rest true ⟨n + 1, (n, l) :: st.newLocals⟩
      ((.localTee n, loc) :: rest', stF)
    | _, _ =>
      let refTop' := match instr with
        | .call f => returnsRef f
        | _ => false
      let (rest', stF) := detectSeq returnsRef rest refTop' st
      ((instr, loc) :: rest', stF)

/-- One step of the detector's fold over the non-entry sequences. -/
def detectFoldStep (returnsRef : Nat → Bool) (acc : List InstrSeq × DetectState)
    (seq : InstrSeq) : List InstrSeq × DetectState :=
  let r := detectSeq returnsRef seq false acc.2
  (r.1 :: acc.1, r.2)

/-- `RefCallDetector` over a whole body (`dfs_pre_order_mut`): every sequence
is scanned with the flag initially clear; the allocation state is carried
through. -/
def detectBody (returnsRef : Nat → Bool) (body : FnBody) (st : DetectState) :
    FnBody × DetectState :=
  let e := detectSeq returnsRef body.entry false st
  let f := body.others.foldl (detectFoldStep returnsRef) ([], e.2)
  (⟨e.1, f.1.reverse⟩, f.2)

/-! ## Locals-retyping plan (`LocalReplacementCounter` / `LocalReplacer`)

The Rust hash maps are modelled as association lists: lookups see the first
binding of a key, updates rewrite it in place, so duplicate keys behave as a
hash map's single binding. -/

/-- Update the (first) binding of `k` in an association list. -/
def aupdate {α : Type} (k : Nat) (f : α → α) : List (Nat × α) → List (Nat × α)
  | [] => []
  | (k', v) :: rest =>
    if k' = k then (k', f v) :: rest else (k', v) :: aupdate k f rest

/-- `LocalState`: for one old local, the recorded `local.get` substitutions
per instruction sequence (in visit order) and the current substitution. -/
structure LocalState where
  replacements : List (Nat × List (Option Nat))
  currentReplacement : Option Nat
  deriving DecidableEq, Repr

/-- `LocalReplacementCounter`: per-old-local states plus the `new_locals`
map. -/
structure CounterState where
  locals : List (Nat × LocalState)
  newLocals : List (Nat × Nat)
  deriving DecidableEq, Repr

/-- `LocalReplacementCounter::new`: one default state per old local (the
values of `new_locals`); each reference parameter starts as the current
substitution of the old local it replaces. -/
def counterInit (refArgs : List Nat) (newLocals : List (Nat × Nat)) : CounterState :=
  let locals := newLocals.map fun p => (p.2, (⟨[], none⟩ : LocalState))
  let locals := refArgs.foldl
    (fun ls arg =>
      match List.lookup arg newLocals with
      | some oldLocal =>
        aupdate oldLocal (fun s => { s with currentReplacement := some arg }) ls
      | none => ls)
    locals
  ⟨locals, newLocals⟩

/-- Append a recorded substitution to the list of sequence `seqId`
(`.entry(current_seq).or_default().push(...)`). -/
def recordPush (seqId : Nat) (v : Option Nat) :
    List (Nat × List (Option Nat)) → List (Nat × List (Option Nat))
  | [] => [(seqId, [v])]
  | (s, l) :: rest =>
    if s = seqId then (s, l ++ [v]) :: rest else (s, l) :: recordPush seqId v rest

/-- `LocalReplacementCounter::visit_assignment`: a store into an old local
clears its current substitution; a store into a new local (a redirected
reference store) makes it the current substitution of its old local. -/
def counterAssign (l : Nat) (st : CounterState) : CounterState :=
  match List.lookup l st.locals with
  | some _ =>
    { st with locals := aupdate l (fun s => { s with currentReplacement := none }) st.locals }
  | none =>
    match List.lookup l st.newLocals with
    | some oldLocal =>
      { st with locals :=
          aupdate oldLocal (fun s => { s with currentReplacement := some l }) st.locals }
    | none => st

/-- One visitor step of `LocalReplacementCounter` in sequence `seqId`:
`local.get` of an old local records the current substitution; `local.set` /
`local.tee` go through `visit_assignment`. -/
def counterVisit (seqId : Nat) (st : CounterState) : Instr → CounterState
  | .localGet l =>
    match List.lookup l st.locals with
    | some state =>
      { st with locals :=
          (aupdate l
            (fun s =>
              { s with replacements :=
                  recordPush seqId state.currentReplacement s.replacements })
            st.locals) }
    | none => st
  | .localSet l => counterAssign l st
  | .localTee l => counterAssign l st
  | _ => st

/-- Run the counter over one sequence. -/
def counterSeq (seqId : Nat) (st : CounterState) (seq : InstrSeq) : CounterState :=
  seq.foldl (fun st li => counterVisit seqId st li.1) st

/-- One step of the counter's fold over the non-entry sequences. -/
def counterFoldStep (acc : Nat × CounterState) (seq : InstrSeq) : Nat × CounterState :=
  (acc.1 + 1, counterSeq acc.1 acc.2 seq)

/-- Run the counter over a whole body (`dfs_in_order`), the entry sequence
having id `0` and the remaining sequences ids `1, 2, …`. -/
def counterBody (refArgs : List Nat) (newLocals : List (Nat × Nat)) (body : FnBody) :
    CounterState :=
  let st := counterSeq 0 (counterInit refArgs newLocals) body.entry
  (body.others.foldl counterFoldStep (1, st)).2

/-- `From<LocalReplacementCounter> for LocalReplacer`: every per-sequence
list is reversed so that `Vec::pop` later yields the records in their
original order. -/
def replacerFrom (c : CounterState) : List (Nat × LocalState) :=
  c.locals.map fun p =>
    (p.1,
      { replacements := p.2.replacements.map fun q => (q.1, q.2.reverse),
        currentReplacement := p.2.currentReplacement })

/-- `LocalReplacer::take_replacement`: pop the last recorded entry for
`(local, seq)` and flatten it. -/
def takeReplacement (seqId : Nat) (l : Nat) (locals : List (Nat × LocalState)) :
    Option Nat × List (Nat × LocalState) :=
  match List.lookup l locals with
  | some state =>
    match List.lookup seqId state.replacements with
    | some lst =>
      (lst.getLast?.join,
        aupdate l (fun s =>
          { s with replacements := aupdate seqId (fun _ => lst.dropLast) s.replacements })
          locals)
    | none => (none, locals)
  | none => (none, locals)

/-- `LocalReplacer::visit_local_get_mut` over one sequence: rewrite each
`local.get` to its popped substitution, if any. -/
def replaceSeq (seqId : Nat) :
    InstrSeq → List (Nat × LocalState) → InstrSeq × List (Nat × LocalState)
  | [], locals => ([], locals)
  | (instr, loc) :: rest, locals =>
    match instr with
    | .localGet l =>
      let (rep, locals') := takeReplacement seqId l locals
      let instr' := match rep with
        | some newLocal => Instr.localGet newLocal
        | none => instr
      let (rest', localsF) := replaceSeq seqId rest locals'
      ((instr', loc) :: rest', localsF)
    | _ =>
      let (rest', localsF) := replaceSeq seqId rest locals
      ((instr, loc) :: rest', localsF)

/-- One step of the replacer's fold over the non-entry sequences. -/
def replaceFoldStep (acc : List InstrSeq × Nat × List (Nat × LocalState))
    (seq : InstrSeq) : List InstrSeq × Nat × List (Nat × LocalState) :=
  let r := replaceSeq acc.2.1 seq acc.2.2
  (r.1 :: acc.1, acc.2.1 + 1, r.2)

/-- Run the replacer over a whole body, sequence ids as in `counterBody`. -/
def replaceBody (c : CounterState) (body : FnBody) : FnBody :=
  let e := replaceSeq 0 body.entry (replacerFrom c)
  let f := body.others.foldl replaceFoldStep ([], 1, e.2)
  ⟨e.1, f.1.reverse⟩

/-- `function_offset`: the bytecode offset of the first instruction of the
entry sequence. -/
def function_offset (body : FnBody) : Option Nat :=
  match body.entry with
  | [] => none
  | (_, loc) :: _ => loc

/-- `ProcessingState::transform_local_fn`
(`crates/lib/src/processor/state.rs`): detect reference-producing call sites;
with no new locals the function is untouched; with new locals an unguarded
function fails with `UnexpectedCall`, a guarded one has its plan built
(`counterBody` with no reference parameters) and applied in place. Returns
the transformed body and the next fresh local id. -/
def transform_local_fn (returnsRef : Nat → Bool) (canHaveLocals : Bool)
    (functionName : Option Bytes) (nextLocal : Nat) (body : FnBody) :
    Except Error (FnBody × Nat) :=
  let d := detectBody returnsRef body ⟨nextLocal, []⟩
  if d.2.newLocals = [] then .ok (d.1, d.2.nextLocal)
  else if ¬ canHaveLocals then
    .error (.unexpectedCall functionName (function_offset d.1))
  else
    .ok (replaceBody (counterBody [] d.2.newLocals d.1) d.1, d.2.nextLocal)

/-! ## Module model and the processing pipeline
(`crates/lib/src/processor/mod.rs`, `state.rs`; `src/processor/functions.rs`)

The walrus module is modelled by the components the processor reads or
writes: custom sections, imports, exports, tables, and the function arena.
The synthesized replacement functions are recorded as tagged local functions;
their bytecode semantics is `insertFn` / `getFn` / `dropFn` above. -/

/-- ASCII names as byte strings. -/
def strBytes (s : String) : Bytes :=
  s.data.map Char.toNat

/-- The reserved custom-section name (`Function::CUSTOM_SECTION_NAME`,
the `__externrefs` link section). -/
def CUSTOM_SECTION_NAME : Bytes := strBytes "__externrefs"

/-- The reserved placeholder-import pseudo-module
(`ExternrefImports::MODULE_NAME`). -/
def EXTERNREF_MODULE : Bytes := strBytes "externref"

/-- walrus `ImportKind`. -/
inductive ImportKind where
  | function (fnId : Nat)
  | table (tableId : Nat)
  | memory (memoryId : Nat)
  | global (globalId : Nat)
  deriving DecidableEq, Repr

/-- One import of the module. -/
structure Import where
  module : Bytes
  name : Bytes
  kind : ImportKind
  deriving DecidableEq, Repr

/-- walrus `ExportItem`. -/
inductive ExportItem where
  | function (fnId : Nat)
  | table (tableId : Nat)
  | memory (memoryId : Nat)
  | global (globalId : Nat)
  deriving DecidableEq, Repr

/-- One export of the module. -/
structure ExportEntry where
  name : Bytes
  item : ExportItem
  deriving DecidableEq, Repr

/-- The kind of a function in the arena: an import, a local function with its
type / argument locals / body, or one of the three synthesized replacement
functions (local functions built by `FunctionBuilder`, whose bodies are
modelled denotationally by `insertFn` / `getFn` / `dropFn`). -/
inductive FuncKind where
  | imported (params results : List ValType)
  | localFn (params results : List ValType) (args : List Nat) (body : FnBody)
  | synthInsert (tableId : Nat)
  | synthGet (tableId : Nat)
  | synthDrop (tableId : Nat) (dropFnId : Option Nat)
  deriving DecidableEq, Repr

/-- The type of a function, as `module.funcs.get(id).ty()` resolves it. -/
def FuncKind.ty : FuncKind → List ValType × List ValType
  | .imported params results => (params, results)
  | .localFn params results _ _ => (params, results)
  | .synthInsert _ => ([.externref], [.i32])
  | .synthGet _ => ([.i32], [.externref])
  | .synthDrop _ _ => ([.i32], [])

/-- A function of the arena. -/
structure Func where
  name : Option Bytes
  kind : FuncKind
  deriving DecidableEq, Repr

/-- The components of a walrus module other than its custom sections; no code
of the processor outside `Processor::process` touches custom sections. -/
structure ModuleCore where
  imports : List Import
  exports : List ExportEntry
  tables : List (ValType × Nat)
  funcs : List (Nat × Func)
  nextFuncId : Nat
  nextLocalId : Nat
  deriving DecidableEq, Repr

/-- A walrus module: raw custom sections (name and payload) plus the rest. -/
structure Module where
  customs : List (Bytes × Bytes)
  core : ModuleCore
  deriving DecidableEq, Repr

/-- `ModuleCustomSections::remove_raw`: remove and return the first custom
section with the given name. -/
def removeRaw (name : Bytes) : List (Bytes × Bytes) →
    Option (Bytes × List (Bytes × Bytes))
  | [] => none
  | (n, data) :: rest =>
    if n == name then some (data, rest)
    else (removeRaw name rest).map fun p => (p.1, (n, data) :: p.2)

/-- `ModuleImports::find` followed by `get`: the first import with the given
module and name. -/
def findImport (imports : List Import) (module name : Bytes) : Option Import :=
  imports.find? fun imp => imp.module == module && imp.name == name

/-- `ModuleImports::delete`: remove the first import with the given module and
name. -/
def deleteImport (module name : Bytes) : List Import → List Import
  | [] => []
  | imp :: rest =>
    if imp.module == module && imp.name == name then rest
    else imp :: deleteImport module name rest

/-- `ModuleFunctions::delete`. -/
def deleteFunc (fnId : Nat) (funcs : List (Nat × Func)) : List (Nat × Func) :=
  funcs.filter fun p => p.1 != fnId

/-- `ExternrefImports` from `src/processor/functions.rs`: the pre-removal ids
of the placeholder imports. -/
structure ExternrefImports where
  insert : Option Nat
  get : Option Nat
  drop : Option Nat
  guard : Option Nat
  deriving DecidableEq, Repr

/-- `ExternrefImports::take_import`: find the placeholder under the reserved
pseudo-module; a non-function import is `UnexpectedImportType`; a function
placeholder is deleted and its id returned; an absent one is fine. -/
def take_import (imports : List Import) (name : Bytes) :
    Except Error (Option Nat × List Import) :=
  match findImport imports EXTERNREF_MODULE name with
  | none => .ok (none, imports)
  | some imp =>
    match imp.kind with
    | .function fnId => .ok (some fnId, deleteImport EXTERNREF_MODULE name imports)
    | _ => .error (.unexpectedImportType EXTERNREF_MODULE name)

/-- `ExternrefImports::new`: take the four placeholders. -/
def ExternrefImports.new (imports : List Import) :
    Except Error (ExternrefImports × List Import) := do
  let (insert, imports) ← take_import imports (strBytes "insert")
  let (get, imports) ← take_import imports (strBytes "get")
  let (drop, imports) ← take_import imports (strBytes "drop")
  let (guard, imports) ← take_import imports (strBytes "guard")
  return (⟨insert, get, drop, guard⟩, imports)

/-- `Processor` configuration (`crates/lib/src/processor/mod.rs`):
the table-export name (`None` disables the export) and the optional
drop-notification import. -/
structure Processor where
  tableName : Option Bytes
  dropFnName : Option (Bytes × Bytes)
  deriving DecidableEq, Repr

/-- `Processor::default()`: table exported as `"externrefs"`, no drop hook. -/
def Processor.default : Processor :=
  ⟨some (strBytes "externrefs"), none⟩

/-- `PatchedFunctions`: mapping from placeholder ids to synthesized ids, the
id of the synthesized `get` (the seed of the returns-reference set), and the
guard placeholder id. -/
structure PatchedFunctions where
  fnMapping : List (Nat × Nat)
  getRefId : Option Nat
  guardId : Option Nat
  deriving DecidableEq, Repr

/-- `PatchedFunctions::new`: add the reference table (element type
`externref`, initial size 0, no maximum), export it unless disabled, and for
each present placeholder delete its function and synthesize its replacement
(for `drop`, first adding the optional host drop-notification import). -/
def PatchedFunctions.new (core : ModuleCore) (imports : ExternrefImports)
    (processor : Processor) : PatchedFunctions × ModuleCore :=
  let tableId := core.tables.length
  let core := { core with tables := core.tables ++ [(.externref, 0)] }
  let core := match processor.tableName with
    | some tableName =>
      { core with exports := core.exports ++ [⟨tableName, .table tableId⟩] }
    | none => core
  let (insMapping, core) : List (Nat × Nat) × ModuleCore := match imports.insert with
    | some fnId =>
      let core := { core with funcs := deleteFunc fnId core.funcs }
      let newId := core.nextFuncId
      ([(fnId, newId)],
        { core with funcs := core.funcs ++ [(newId, ⟨none, .synthInsert tableId⟩)],
                    nextFuncId := newId + 1 })
    | none => ([], core)
  let (getMapping, getRefId, core) : List (Nat × Nat) × Option Nat × ModuleCore :=
    match imports.get with
    | some fnId =>
      let core := { core with funcs := deleteFunc fnId core.funcs }
      let newId := core.nextFuncId
      ([(fnId, newId)], some newId,
        { core with funcs := core.funcs ++ [(newId, ⟨none, .synthGet tableId⟩)],
                    nextFuncId := newId + 1 })
    | none => ([], none, core)
  let (dropMapping, core) : List (Nat × Nat) × ModuleCore := match imports.drop with
    | some fnId =>
      let core := { core with funcs := deleteFunc fnId core.funcs }
      let (dropFnId, core) : Option Nat × ModuleCore := match processor.dropFnName with
        | some (moduleName, name) =>
          let importId := core.nextFuncId
          (some importId,
            { core with
                imports := core.imports ++ [⟨moduleName, name, .function importId⟩],
                funcs := core.funcs ++ [(importId, ⟨none, .imported [.externref] []⟩)],
                nextFuncId := importId + 1 })
        | none => (none, core)
      let newId := core.nextFuncId
      ([(fnId, newId)],
        { core with funcs := core.funcs ++ [(newId, ⟨none, .synthDrop tableId dropFnId⟩)],
                    nextFuncId := newId + 1 })
    | none => ([], core)
  (⟨insMapping ++ getMapping ++ dropMapping, getRefId, imports.guard⟩, core)

/-- `FunctionsReplacer` over one sequence: redirect every call through the
placeholder → replacement mapping. -/
def mapCallsSeq (mapping : List (Nat × Nat)) (seq : InstrSeq) : InstrSeq :=
  seq.map fun li =>
    match li.1 with
    | .call f =>
      match List.lookup f mapping with
      | some mapped => (.call mapped, li.2)
      | none => li
    | _ => li

/-- `FunctionsReplacer` over a whole body. -/
def mapCallsBody (mapping : List (Nat × Nat)) (body : FnBody) : FnBody :=
  ⟨mapCallsSeq mapping body.entry, body.others.map (mapCallsSeq mapping)⟩

/-- `PatchedFunctions::replace_calls`: for every local function, redirect
placeholder calls, then (when a guard placeholder exists) remove guard calls
and classify the function; returns the rewritten arena and the guarded-set. -/
def replaceCallsGo (pf : PatchedFunctions) :
    List (Nat × Func) → Except Error (List (Nat × Func) × List Nat)
  | [] => .ok ([], [])
  | (fid, f) :: rest =>
    match f.kind with
    | .localFn params results args body =>
      let body := mapCallsBody pf.fnMapping body
      match pf.guardId with
      | some guardId =>
        match remove_guards guardId f.name body with
        | .error e => .error e
        | .ok (guarded, body) =>
          match replaceCallsGo pf rest with
          | .error e => .error e
          | .ok (rest', guardedSet) =>
            .ok ((fid, ⟨f.name, .localFn params results args body⟩) :: rest',
              if guarded then fid :: guardedSet else guardedSet)
      | none =>
        match replaceCallsGo pf rest with
        | .error e => .error e
        | .ok (rest', guardedSet) =>
          .ok ((fid, ⟨f.name, .localFn params results args body⟩) :: rest', guardedSet)
    | _ =>
      match replaceCallsGo pf rest with
      | .error e => .error e
      | .ok (rest', guardedSet) => .ok ((fid, f) :: rest', guardedSet)

/-- `ProcessingState::replace_functions`. -/
def replace_calls (pf : PatchedFunctions) (core : ModuleCore) :
    Except Error (List Nat × ModuleCore) :=
  match replaceCallsGo pf core.funcs with
  | .error e => .error e
  | .ok (funcs, guardedSet) => .ok (guardedSet, { core with funcs })

/-- `ProcessingState` (its `patched_fns` field). -/
structure ProcessingState where
  patchedFns : PatchedFunctions
  deriving DecidableEq, Repr

/-- `ProcessingState::new`: take the placeholder imports, then synthesize the
table and replacement functions. -/
def ProcessingState.new (core : ModuleCore) (processor : Processor) :
    Except Error (ProcessingState × ModuleCore) :=
  match ExternrefImports.new core.imports with
  | .error e => .error e
  | .ok (imports, imports') =>
    let core := { core with imports := imports' }
    let (pf, core) := PatchedFunctions.new core imports processor
    .ok (⟨pf⟩, core)

/-- `ProcessingState::function_id`: resolve a catalog entry. A missing export
is an error; a missing import is fine (declared but unused) and resolves to
`none`; a non-function export / import is an error. -/
def function_id (function : Function) (core : ModuleCore) :
    Except Error (Option Nat) :=
  match function.kind with
  | .exported =>
    match core.exports.find? (fun e => e.name == function.name) with
    | none => .error (.noExport function.name)
    | some e =>
      match e.item with
      | .function fnId => .ok (some fnId)
      | _ => .error (.unexpectedExportType function.name)
  | .imported moduleName =>
    match findImport core.imports moduleName function.name with
    | none => .ok none
    | some imp =>
      match imp.kind with
      | .function fnId => .ok (some fnId)
      | _ => .error (.unexpectedImportType moduleName function.name)

/-- Outcome of a fallible stage that may also panic (Rust index
out-of-bounds in `patch_type_inner`, or a failed `unwrap`). -/
inductive POutcome (α : Type) where
  | ok (a : α)
  | err (e : Error)
  | panicked
  deriving DecidableEq, Repr

/-- `module.funcs.get(id).ty()` resolved to parameters and results. -/
def funcTy (core : ModuleCore) (fnId : Nat) : List ValType × List ValType :=
  match List.lookup fnId core.funcs with
  | some f => f.kind.ty
  | none => ([], [])

/-- `transform_import`: install the patched type on the imported function. -/
def transform_import (core : ModuleCore) (function : Function) (fnId : Nat) :
    POutcome ModuleCore :=
  let (params, results) := funcTy core fnId
  match patch_type_inner params results function with
  | .ok params' results' =>
    .ok { core with funcs :=
        (aupdate fnId (fun f => { f with kind := .imported params' results' }) core.funcs) }
  | .err e => .err e
  | .panicked => .panicked

/-- The first loop of `process_functions`: seed the returns-reference set,
add every resolved catalog function with a single result whose last position
bit is set, and patch the type of each resolved import. -/
def processEntriesGo :
    List (Function × Option Nat) → List Nat → ModuleCore →
    POutcome (List Nat × ModuleCore)
  | [], set, core => .ok (set, core)
  | (_, none) :: rest, set, core => processEntriesGo rest set core
  | (function, some fnId) :: rest, set, core =>
    let results := (funcTy core fnId).2
    let refs := function.externrefs
    let set := if results.length = 1 ∧ refs.is_set (refs.bitLen - 1) then set ++ [fnId]
      else set
    match function.kind with
    | .imported _ =>
      match transform_import core function fnId with
      | .ok core => processEntriesGo rest set core
      | .err e => .err e
      | .panicked => .panicked
    | .exported => processEntriesGo rest set core

/-- The parameter-local reallocation of `transform_export`: for every marked
index naming a parameter, replace the argument local by a freshly allocated
`externref` local and remember new → old in `locals_mapping`. -/
def allocRefArgs (setIndices : List Nat) (args : List Nat) (nextLocal : Nat) :
    List Nat × List (Nat × Nat) × Nat :=
  setIndices.foldl
    (fun (acc : List Nat × List (Nat × Nat) × Nat) idx =>
      let (args, mapping, nl) := acc
      if h : idx < args.length then
        (args.set idx nl, mapping ++ [(nl, args.get ⟨idx, h⟩)], nl + 1)
      else acc)
    (args, [], nextLocal)

/-- `ProcessingState::transform_export`: patch the type, reallocate reference
parameters, detect reference-producing call sites, build the retyping plan
(reference parameters seeding the current substitutions) and clone the body
with the plan applied. In this flat model cloning's structural remapping is
the identity, so the clone is the body with `local.get`s rewritten. -/
def transform_export (functionsReturningRef : List Nat) (fnId : Nat)
    (function : Function) (core : ModuleCore) : POutcome ModuleCore :=
  match List.lookup fnId core.funcs with
  | some ⟨fname, .localFn params results args body⟩ =>
    match patch_type_inner params results function with
    | .err e => .err e
    | .panicked => .panicked
    | .ok params' results' =>
      let (args', localsMapping, nextLocal) :=
        allocRefArgs function.externrefs.set_indices args core.nextLocalId
      let refArgs := localsMapping.map (·.1)
      let (body1, detSt) :=
        detectBody (fun f => functionsReturningRef.contains f) body ⟨nextLocal, []⟩
      let newLocals := detSt.newLocals ++ localsMapping
      let body2 := replaceBody (counterBody refArgs newLocals body1) body1
      .ok { core with
        funcs := aupdate fnId
          (fun _ => ⟨fname, .localFn params' results' args' body2⟩) core.funcs,
        nextLocalId := detSt.nextLocal }
  | _ => .panicked

/-- `ProcessingState::transform_local_fn` lifted to the module: run the
per-function transform with the module's fresh-local allocator. -/
def transform_local_fn_core (functionsReturningRef : List Nat) (canHaveLocals : Bool)
    (fnId : Nat) (core : ModuleCore) : POutcome ModuleCore :=
  match List.lookup fnId core.funcs with
  | some ⟨fname, .localFn params results args body⟩ =>
    match transform_local_fn (fun f => functionsReturningRef.contains f) canHaveLocals
        fname core.nextLocalId body with
    | .error e => .err e
    | .ok (body', nextLocal) =>
      .ok { core with
        funcs := aupdate fnId
          (fun _ => ⟨fname, .localFn params results args body'⟩) core.funcs,
        nextLocalId := nextLocal }
  | _ => .panicked

/-- Is this arena entry a local function subject to body rewriting? (The
synthesized replacement functions are also walrus-local, but contain no call
to a reference-returning function and no catalog name, so the rewriting loop
leaves them unchanged; they are kept opaque here.) -/
def Func.isLocal : Func → Bool
  | ⟨_, .localFn _ _ _ _⟩ => true
  | _ => false

/-- The final loop of `process_functions` over local functions: catalog
exports get `transform_export`, everything else `transform_local_fn` with
`can_have_locals` from the guarded set. -/
def processLocalFnsGo (functionsReturningRef : List Nat)
    (functionsById : List (Nat × Function)) (guardedFns : List Nat) :
    List Nat → ModuleCore → POutcome ModuleCore
  | [], core => .ok core
  | fnId :: rest, core =>
    let step := match List.lookup fnId functionsById with
      | some function => transform_export functionsReturningRef fnId function core
      | none =>
        transform_local_fn_core functionsReturningRef (guardedFns.contains fnId) fnId core
    match step with
    | .ok core => processLocalFnsGo functionsReturningRef functionsById guardedFns rest core
    | .err e => .err e
    | .panicked => .panicked

/-- The `collect::<Result<Vec<_>, _>>()` over `function_id`: resolve every
catalog entry, stopping at the first error. -/
def resolveIds (core : ModuleCore) : List Function → Except Error (List (Option Nat))
  | [] => .ok []
  | f :: rest =>
    match function_id f core with
    | .error e => .error e
    | .ok id =>
      match resolveIds core rest with
      | .error e => .error e
      | .ok ids => .ok (id :: ids)

/-- `ProcessingState::process_functions`: resolve catalog ids, build the
returns-reference set while patching imports, then rewrite local functions. -/
def process_functions (state : ProcessingState) (functions : List Function)
    (guardedFns : List Nat) (core : ModuleCore) : POutcome ModuleCore :=
  match resolveIds core functions with
  | .error e => .err e
  | .ok functionIds =>
    let seed := match state.patchedFns.getRefId with
      | some fnId => [fnId]
      | none => []
    match processEntriesGo (functions.zip functionIds) seed core with
    | .err e => .err e
    | .panicked => .panicked
    | .ok (functionsReturningRef, core) =>
      let functionsById := (functionIds.zip functions).filterMap
        fun p => p.1.map fun id => (id, p.2)
      let localFnIds := (core.funcs.filter fun p => p.2.isLocal).map (·.1)
      processLocalFnsGo functionsReturningRef functionsById guardedFns localFnIds core

/-- Modelled from the spec: §4.5.7 — dead-code elimination "is a contract
with the host IR library; the processor does not itself define the sweep"
(`walrus::passes::gc`, not part of this repository). The sweep drops unused
code-pool items and never touches custom sections; nothing proved below
depends on what it removes, so it is the identity on the tracked
components. -/
def gc_run (core : ModuleCore) : ModuleCore := core

/-- `Processor::process` (`crates/lib/src/processor/mod.rs`): remove the
reserved custom section as the very first step (returning success untouched
when it is absent), parse it, then run the pipeline. The returned module is
the mutated-in-place argument, also on failure (on `err` / `panicked` the
code pools may be partially rewritten; the model keeps the last state the
failing stage was given). -/
def Processor.process (processor : Processor) (m : Module) : POutcome Unit × Module :=
  match removeRaw CUSTOM_SECTION_NAME m.customs with
  | none => (.ok (), m)
  | some (data, customs) =>
    let m : Module := ⟨customs, m.core⟩
    match parse_section data with
    | .error e => (.err (.read e), m)
    | .ok functions =>
      match ProcessingState.new m.core processor with
      | .error e => (.err e, m)
      | .ok (state, core) =>
        match replace_calls state.patchedFns core with
        | .error e => (.err e, ⟨m.customs, core⟩)
        | .ok (guardedFns, core) =>
          match process_functions state functions guardedFns core with
          | .err e => (.err e, ⟨m.customs, core⟩)
          | .panicked => (.panicked, ⟨m.customs, core⟩)
          | .ok core => (.ok (), ⟨m.customs, gc_run core⟩)

/-! ## Specification-side predicates

These express, directly in the spec's vocabulary, the shapes the theorems
below relate to the embedded code. -/

/-- Is this instruction a `local.set` or `local.tee`? -/
def isSetOrTee : Instr → Bool
  | .localSet _ => true
  | .localTee _ => true
  | _ => false

/-- Is this a call to a reference-returning function? -/
def isRefCall (returnsRef : Nat → Bool) : Instr → Bool
  | .call f => returnsRef f
  | _ => false

/-- Spec §4.5.4: does the instruction list contain a call to a
reference-returning function immediately followed by a `local.set` /
`local.tee`? -/
def hasRefCallStore (returnsRef : Nat → Bool) : List Instr → Bool
  | i1 :: i2 :: rest =>
    (isRefCall returnsRef i1 && isSetOrTee i2) || hasRefCallStore returnsRef (i2 :: rest)
  | _ => false

/-- The call-site detector's per-sequence trigger: walking the instruction
list with the "reference on top of the stack" flag, does a `local.set` /
`local.tee` ever fire while the flag is set? -/
def seqTriggers (returnsRef : Nat → Bool) : List Instr → Bool → Bool
  | [], _ => false
  | .localSet _ :: _, true => true
  | .localTee _ :: _, true => true
  | i :: rest, _ =>
    seqTriggers returnsRef rest (match i with | .call f => returnsRef f | _ => false)

/-- `hasRefCallStore` over a whole body. -/
def bodyHasRefCallStore (returnsRef : Nat → Bool) (body : FnBody) : Bool :=
  hasRefCallStore returnsRef (body.entry.map (·.1)) ||
    body.others.any fun s => hasRefCallStore returnsRef (s.map (·.1))

/-- Is this instruction a call to the guard placeholder `g`? -/
def isGuardCall (g : Nat) (i : Instr) : Bool :=
  match i with
  | .call f => f = g
  | _ => false

/-- A sequence with its guard calls removed. -/
def eraseGuards (g : Nat) (seq : InstrSeq) : InstrSeq :=
  seq.filter fun li => !(isGuardCall g li.1)

/-- Does the sequence contain a guard call? -/
def seqHasGuard (g : Nat) (seq : InstrSeq) : Bool :=
  seq.any fun li => isGuardCall g li.1

/-- Spec §4.4, acceptability of guard calls inside the entry sequence: every
guard call must be the very first instruction or immediately preceded by a
`global.set`. `ok` carries whether the current position is acceptable (it is
at the start, and after a `global.set`). -/
def entrySeqGuardsOk (g : Nat) : InstrSeq → Bool → Bool
  | [], _ => true
  | (instr, _) :: rest, ok =>
    (if isGuardCall g instr then ok else true) && entrySeqGuardsOk g rest instr.isGlobalSet

/-- The classification the guard scan assigns to each guard call of a
sequence, in order (`idx` / `prevGS` as in `guardScanSeq`). -/
def seqPlacements (g : Nat) (isEntry : Bool) : InstrSeq → Nat → Bool → List GuardPlacement
  | [], _, _ => []
  | (instr, loc) :: rest, idx, prevGS =>
    (if isGuardCall g instr then
      [if isEntry && (idx == 0 || prevGS) then .correct else .incorrect loc]
    else []) ++ seqPlacements g isEntry rest (idx + 1) instr.isGlobalSet

/-- All guard-call classifications of a body, entry sequence first. -/
def bodyPlacements (g : Nat) (body : FnBody) : List GuardPlacement :=
  seqPlacements g true body.entry 0 false ++
    (body.others.map fun s => seqPlacements g false s 0 false).flatten

/-- The bytecode offsets of the misplaced guard calls of a body. -/
def misplacedOffsets (g : Nat) (body : FnBody) : List (Option Nat) :=
  (bodyPlacements g body).filterMap fun p =>
    match p with
    | .incorrect off => some off
    | .correct => none

/-! ### Spec-side semantics of the locals-retyping plan (spec §4.5.5)

A one-pass program-order rewrite: `cur` maps each old local to its current
substitution (`some newLocal` while a redirected reference store is active,
`none` after a non-reference reassignment). Gets of old locals are rewritten
to the current substitution when one is active and left alone otherwise. -/

/-- Spec §4.5.5, the effect of a `local.set` / `local.tee` on the current
substitutions: a store into an old local clears its substitution (the slot
now carries an integer); a store into one of the detector's new reference
locals activates it for the old local it replaces. -/
def specAssign (newLocals : List (Nat × Nat)) (cur : List (Nat × Option Nat))
    (l : Nat) : List (Nat × Option Nat) :=
  match List.lookup l cur with
  | some _ => aupdate l (fun _ => none) cur
  | none =>
    match List.lookup l newLocals with
    | some oldLocal => aupdate oldLocal (fun _ => some l) cur
    | none => cur

/-- Spec §4.5.5 over one sequence: the recorded occurrences (old local and the
substitution observed, in textual order), the rewritten sequence, and the
final substitutions. -/
def specExec (newLocals : List (Nat × Nat)) :
    InstrSeq → List (Nat × Option Nat) →
    List (Nat × Option Nat) × InstrSeq × List (Nat × Option Nat)
  | [], cur => ([], [], cur)
  | (i, loc) :: rest, cur =>
    match i with
    | .localGet l =>
      match List.lookup l cur with
      | some v =>
        let r := specExec newLocals rest cur
        ((l, v) :: r.1,
          (match v with
            | some n => (Instr.localGet n, loc)
            | none => (Instr.localGet l, loc)) :: r.2.1,
          r.2.2)
      | none =>
        let r := specExec newLocals rest cur
        (r.1, (Instr.localGet l, loc) :: r.2.1, r.2.2)
    | .localSet l =>
      let r := specExec newLocals rest (specAssign newLocals cur l)
      (r.1, (Instr.localSet l, loc) :: r.2.1, r.2.2)
    | .localTee l =>
      let r := specExec newLocals rest (specAssign newLocals cur l)
      (r.1, (Instr.localTee l, loc) :: r.2.1, r.2.2)
    | _ =>
      let r := specExec newLocals rest cur
      (r.1, (i, loc) :: r.2.1, r.2.2)

/-- One step of the spec-side rewrite over the non-entry sequences. -/
def specFoldStep (newLocals : List (Nat × Nat))
    (acc : List InstrSeq × List (Nat × Option Nat)) (seq : InstrSeq) :
    List InstrSeq × List (Nat × Option Nat) :=
  let r := specExec newLocals seq acc.2
  (r.2.1 :: acc.1, r.2.2)

/-- Spec §4.5.5 over a whole body, substitutions initially inactive for every
old local (the local-function case: no reference parameters). -/
def specRewriteBody (newLocals : List (Nat × Nat)) (body : FnBody) : FnBody :=
  let cur0 : List (Nat × Option Nat) := newLocals.map fun p => (p.2, none)
  let e := specExec newLocals body.entry cur0
  let f := body.others.foldl (specFoldStep newLocals) ([], e.2.2)
  ⟨e.2.1, f.1.reverse⟩

/-- The per-sequence occurrence lists of the spec pass over consecutive
sequences, threading the substitutions. -/
def specEventsTrace (newLocals : List (Nat × Nat)) :
    List InstrSeq → List (Nat × Option Nat) →
    List (List (Nat × Option Nat)) × List (Nat × Option Nat)
  | [], cur => ([], cur)
  | s :: rest, cur =>
    let e := specExec newLocals s cur
    let r := specEventsTrace newLocals rest e.2.2
    (e.1 :: r.1, r.2)

/-- The current substitutions abstracted from a counter state. -/
def curOf (locals : List (Nat × LocalState)) : List (Nat × Option Nat) :=
  locals.map fun p => (p.1, p.2.currentReplacement)

/-- The recorded list for old local `L` in sequence `k` (empty when absent),
abstracted from a counter or replacer state. -/
def recsOf (locals : List (Nat × LocalState)) (L k : Nat) : List (Option Nat) :=
  match List.lookup L locals with
  | some st => (List.lookup k st.replacements).getD []
  | none => []

/-! ## Theorems -/

/-- The free-slot scan finds a null slot at an index `≤ i`, or reports the
table size when no slot in `0..=i` is null. -/
theorem scanFree_spec (table : Table) (i : Nat) :
    (scanFree table i ≤ i ∧ table.get? (scanFree table i) = some none) ∨
    (scanFree table i = table.length ∧ ∀ j ≤ i, table.get? j ≠ some none) := by
  induction i with
  | zero =>
    unfold scanFree
    split
    · next h => exact Or.inl ⟨Nat.le_refl 0, h⟩
    · next h =>
      refine Or.inr ⟨rfl, fun j hj => ?_⟩
      interval_cases j
      exact h
  | succ i ih =>
    unfold scanFree
    split
    · next h => exact Or.inl ⟨Nat.le_refl _, h⟩
    · next h =>
      rcases ih with ⟨h1, h2⟩ | ⟨h1, h2⟩
      · exact Or.inl ⟨Nat.le_succ_of_le h1, h2⟩
      · refine Or.inr ⟨h1, fun j hj => ?_⟩
        rcases Nat.lt_or_ge j (i + 1) with hlt | hge
        · exact h2 j (by omega)
        · have heq : j = i + 1 := by omega
          subst heq; exact h

/-- C1: `insert` returns `-1` (`MAX_WORD`) on a null argument and leaves the
table unchanged; on a non-null argument it returns an index `i` with
`table[i] == ref` afterwards, reusing an existing null slot (table size
unchanged) whenever one exists, and growing the table by exactly one slot
only when no null slot exists, trapping if the growth fails. -/
theorem insertFn_spec (r : Ref) (growOk : Bool) (table : Table)
    (hlen : table.length < MAX_WORD) :
    insertFn none growOk table = some (MAX_WORD, table) ∧
    (none ∈ table →
      ∃ i, i < table.length ∧ table.get? i = some none ∧
        insertFn (some r) growOk table = some (i, table.set i (some r)) ∧
        (table.set i (some r)).length = table.length ∧
        (table.set i (some r)).get? i = some (some r)) ∧
    (none ∉ table →
      (growOk = true →
        insertFn (some r) growOk table = some (table.length, table ++ [some r]) ∧
        (table ++ [some r]).get? table.length = some (some r) ∧
        (table ++ [some r]).length = table.length + 1) ∧
      (growOk = false → insertFn (some r) growOk table = none)) := by
  refine ⟨rfl, ?_, ?_⟩
  · intro hmem
    obtain ⟨j, hj⟩ := List.mem_iff_get?.mp hmem
    have hjlen : j < table.length := by
      rcases List.get?_eq_some.mp hj with ⟨h, _⟩
      exact h
    have hpos : 0 < table.length := by omega
    rcases scanFree_spec table (table.length - 1) with ⟨h1, h2⟩ | ⟨_, h2⟩
    · refine ⟨scanFree table (table.length - 1), ?_, h2, ?_, ?_, ?_⟩
      · omega
      · unfold insertFn
        simp only [if_pos hpos]
        have hne : scanFree table (table.length - 1) ≠ table.length := by omega
        simp [hne]
      · exact List.length_set table _ _
      · rw [List.get?_set_eq]
        rw [h2]
        rfl
    · exact absurd hj (h2 j (by omega))
  · intro hmem
    have hfree : (if 0 < table.length then scanFree table (table.length - 1) else 0)
        = table.length := by
      split
      · next hpos =>
        rcases scanFree_spec table (table.length - 1) with ⟨_, h2⟩ | ⟨h1, _⟩
        · exact absurd (List.mem_iff_get?.mpr ⟨_, h2⟩) hmem
        · exact h1
      · next hpos => omega
    constructor
    · intro hgrow
      subst hgrow
      refine ⟨?_, List.get?_concat_length table (some r), by simp⟩
      unfold insertFn
      simp only [hfree]
      have : table.length ≠ MAX_WORD := by omega
      simp [this]
    · intro hgrow
      subst hgrow
      unfold insertFn
      simp only [hfree]
      simp

/-- C1 witness: inserting into `[some 1, none]` reuses the null slot 1. -/
theorem insertFn_spec_witness :
    ([some 1, none] : Table).length < MAX_WORD ∧
    (∃ i, i < ([some 1, none] : Table).length ∧
      ([some 1, none] : Table).get? i = some none ∧
      insertFn (some 7) true [some 1, none] = some (i, ([some 1, none] : Table).set i (some 7)) ∧
      (([some 1, none] : Table).set i (some 7)).length = ([some 1, none] : Table).length ∧
      (([some 1, none] : Table).set i (some 7)).get? i = some (some 7)) :=
  ⟨by decide, (insertFn_spec 7 true [some 1, none] (by decide)).2.1 (by decide)⟩

/-- C7: `get` returns null for the sentinel index `MAX_WORD`, else
`table[index]`; `get` never modifies the table. -/
theorem getFn_spec (table : Table) :
    getFn MAX_WORD table = some (none, table) ∧
    (∀ idx (h : idx < table.length), idx ≠ MAX_WORD →
      getFn idx table = some (table.get ⟨idx, h⟩, table)) ∧
    (∀ idx out table', getFn idx table = some (out, table') → table' = table) := by
  refine ⟨by simp [getFn], ?_, ?_⟩
  · intro idx h hne
    unfold getFn
    rw [if_neg hne, List.get?_eq_get h]
  · intro idx out table' h
    unfold getFn at h
    split at h
    · cases h; rfl
    · split at h
      · cases h; rfl
      · cases h

/-- C7 witness: `get 0` on `[some 5]` returns the stored reference and the
unchanged table. -/
theorem getFn_spec_witness :
    getFn 0 [some 5] = some (some 5, [some 5]) :=
  (getFn_spec [some 5]).2.1 0 (by decide) (by decide)

/-- C8: `drop(index)` with a configured drop notification invokes it exactly
once with the pre-clear value `table[index]` and then nulls the slot; without
a notification the only effect is nulling the slot. -/
theorem dropFn_spec (table : Table) (idx : Nat) (h : idx < table.length) :
    dropFn true idx table = some ([table.get ⟨idx, h⟩], table.set idx none) ∧
    dropFn false idx table = some ([], table.set idx none) ∧
    (table.set idx none).get? idx = some none := by
  refine ⟨?_, ?_, ?_⟩
  · unfold dropFn
    rw [dif_pos h]
    rfl
  · unfold dropFn
    rw [dif_pos h]
    rfl
  · rw [List.get?_set_eq, List.get?_eq_get h]
    rfl

/-- C8 witness: dropping slot 0 of `[some 3, some 4]` notifies with `some 3`
and clears the slot. -/
theorem dropFn_spec_witness :
    dropFn true 0 [some 3, some 4] = some ([some 3], [none, some 4]) :=
  (dropFn_spec [some 3, some 4] 0 (by decide)).1

/-- C3 (code bug): a marked *argument* position of non-`i32` type produces
`UnexpectedType` with the observed type, but a marked *result* position of
non-`i32` type makes `patch_type_inner` read `new_params[idx]` at the global
position `idx ≥ |params|`, which is an out-of-bounds panic, not the
documented error. Inputs: a function of type `(i32) → f64` with result bit
set, and one of type `(f64) → i32` with argument bit set. -/
theorem patch_type_inner_result_panics :
    patch_type_inner [.i32] [.f64] ⟨.exported, strBytes "f", ⟨[2], 2⟩⟩ = .panicked ∧
    patch_type_inner [.f64] [.i32] ⟨.exported, strBytes "f", ⟨[1], 2⟩⟩ =
      .err (.unexpectedType none (strBytes "f") (.arg 0) .f64) := by
  constructor <;> rfl

/-- The detector's trigger flagging equals the adjacent
call-then-store shape of spec §4.5.4 (generalized over the initial flag). -/
theorem seqTriggers_eq (returnsRef : Nat → Bool) (l : List Instr) (b : Bool) :
    seqTriggers returnsRef l b =
      ((b && (match l with | i :: _ => isSetOrTee i | [] => false)) ||
        hasRefCallStore returnsRef l) := by
  induction l generalizing b with
  | nil => simp [seqTriggers, hasRefCallStore]
  | cons i rest ih =>
    cases rest with
    | nil =>
      cases b <;> cases i <;>
        simp [seqTriggers, hasRefCallStore, isSetOrTee, isRefCall]
    | cons i2 rest2 =>
      cases b <;> cases i <;>
        simp [seqTriggers, hasRefCallStore, isSetOrTee, isRefCall, ih]

/-- The detector adds new locals to the head of the map and advances the
fresh-local counter by their number; it adds none exactly when no store
triggers. -/
theorem detectSeq_newLocals (returnsRef : Nat → Bool) (seq : InstrSeq) (b : Bool)
    (st : DetectState) :
    ∃ added, (detectSeq returnsRef seq b st).2.newLocals = added ++ st.newLocals ∧
      (added = [] ↔ seqTriggers returnsRef (seq.map (·.1)) b = false) ∧
      (detectSeq returnsRef seq b st).2.nextLocal = st.nextLocal + added.length := by
  induction seq generalizing b st with
  | nil =>
    refine ⟨[], rfl, ?_, rfl⟩
    simp [seqTriggers]
  | cons li rest ih =>
    obtain ⟨instr, loc⟩ := li
    cases instr with
    | localSet l =>
      cases b with
      | true =>
        obtain ⟨added', h1, h2, h3⟩ :=
          ih false ⟨st.nextLocal + 1, (st.nextLocal, l) :: st.newLocals⟩
        refine ⟨added' ++ [(st.nextLocal, l)], ?_, ?_, ?_⟩
        · simp only [detectSeq, h1, List.append_assoc, List.cons_append, List.nil_append]
        · simp [seqTriggers]
        · simp only [detectSeq, h3, List.length_append, List.length_cons,
            List.length_nil]
          omega
      | false =>
        obtain ⟨added', h1, h2, h3⟩ := ih false st
        exact ⟨added', h1, by simpa [seqTriggers, isRefCall] using h2, h3⟩
    | localTee l =>
      cases b with
      | true =>
        obtain ⟨added', h1, h2, h3⟩ :=
          ih true ⟨st.nextLocal + 1, (st.nextLocal, l) :: st.newLocals⟩
        refine ⟨added' ++ [(st.nextLocal, l)], ?_, ?_, ?_⟩
        · simp only [detectSeq, h1, List.append_assoc, List.cons_append, List.nil_append]
        · simp [seqTriggers]
        · simp only [detectSeq, h3, List.length_append, List.length_cons,
            List.length_nil]
          omega
      | false =>
        obtain ⟨added', h1, h2, h3⟩ := ih false st
        exact ⟨added', h1, by simpa [seqTriggers, isRefCall] using h2, h3⟩
    | call f =>
      obtain ⟨added', h1, h2, h3⟩ := ih (returnsRef f) st
      refine ⟨added', ?_, ?_, ?_⟩
      · cases b <;> simpa [detectSeq] using h1
      · cases b <;> simpa [seqTriggers] using h2
      · cases b <;> simpa [detectSeq] using h3
    | localGet l =>
      obtain ⟨added', h1, h2, h3⟩ := ih false st
      refine ⟨added', ?_, ?_, ?_⟩
      · cases b <;> simpa [detectSeq] using h1
      · cases b <;> simpa [seqTriggers] using h2
      · cases b <;> simpa [detectSeq] using h3
    | globalSet g =>
      obtain ⟨added', h1, h2, h3⟩ := ih false st
      refine ⟨added', ?_, ?_, ?_⟩
      · cases b <;> simpa [detectSeq] using h1
      · cases b <;> simpa [seqTriggers] using h2
      · cases b <;> simpa [detectSeq] using h3
    | other =>
      obtain ⟨added', h1, h2, h3⟩ := ih false st
      refine ⟨added', ?_, ?_, ?_⟩
      · cases b <;> simpa [detectSeq] using h1
      · cases b <;> simpa [seqTriggers] using h2
      · cases b <;> simpa [detectSeq] using h3

/-- A sequence that never triggers is returned unchanged with an unchanged
state. -/
theorem detectSeq_no_trigger (returnsRef : Nat → Bool) (seq : InstrSeq) (b : Bool)
    (st : DetectState) (h : seqTriggers returnsRef (seq.map (·.1)) b = false) :
    detectSeq returnsRef seq b st = (seq, st) := by
  induction seq generalizing b with
  | nil => rfl
  | cons li rest ih =>
    obtain ⟨instr, loc⟩ := li
    cases instr with
    | localSet l =>
      cases b with
      | true => simp [seqTriggers] at h
      | false =>
        simp only [seqTriggers, List.map_cons] at h
        simp [detectSeq, ih false h]
    | localTee l =>
      cases b with
      | true => simp [seqTriggers] at h
      | false =>
        simp only [seqTriggers, List.map_cons] at h
        simp [detectSeq, ih false h]
    | call f =>
      cases b <;> simp only [seqTriggers, List.map_cons] at h <;>
        simp [detectSeq, ih (returnsRef f) h]
    | localGet l =>
      cases b <;> simp only [seqTriggers, List.map_cons] at h <;>
        simp [detectSeq, ih false h]
    | globalSet g =>
      cases b <;> simp only [seqTriggers, List.map_cons] at h <;>
        simp [detectSeq, ih false h]
    | other =>
      cases b <;> simp only [seqTriggers, List.map_cons] at h <;>
        simp [detectSeq, ih false h]

/-- `detectFoldStep` folded over the non-entry sequences: new locals
accumulate per-sequence, and none appear exactly when no sequence triggers. -/
theorem detectFold_spec (returnsRef : Nat → Bool) (others : List InstrSeq)
    (accL : List InstrSeq) (st : DetectState) :
    ∃ added,
      (others.foldl (detectFoldStep returnsRef) (accL, st)).2.newLocals =
        added ++ st.newLocals ∧
      (added = [] ↔ ∀ s ∈ others, seqTriggers returnsRef (s.map (·.1)) false = false) ∧
      (others.foldl (detectFoldStep returnsRef) (accL, st)).2.nextLocal =
        st.nextLocal + added.length := by
  induction others generalizing accL st with
  | nil =>
    refine ⟨[], rfl, ?_, rfl⟩
    simp
  | cons s rest ih =>
    obtain ⟨a1, h1, h2, h3⟩ := detectSeq_newLocals returnsRef s false st
    obtain ⟨a2, g1, g2, g3⟩ :=
      ih ((detectSeq returnsRef s false st).1 :: accL) (detectSeq returnsRef s false st).2
    refine ⟨a2 ++ a1, ?_, ?_, ?_⟩
    · simp only [List.foldl_cons, detectFoldStep]
      rw [g1, h1, List.append_assoc]
    · constructor
      · intro hempty
        have ha1 : a1 = [] := by
          rcases List.append_eq_nil.mp hempty with ⟨_, h⟩
          exact h
        have ha2 : a2 = [] := by
          rcases List.append_eq_nil.mp hempty with ⟨h, _⟩
          exact h
        intro t ht
        rcases List.mem_cons.mp ht with rfl | ht'
        · exact h2.mp ha1
        · exact (g2.mp ha2) t ht'
      · intro hall
        have ha1 : a1 = [] := h2.mpr (hall s (List.mem_cons_self s rest))
        have ha2 : a2 = [] := g2.mpr fun t ht => hall t (List.mem_cons_of_mem s ht)
        simp [ha1, ha2]
    · simp only [List.foldl_cons, detectFoldStep]
      rw [g3, h3, List.length_append]
      omega

/-- `detectBody` adds new locals per the spec §4.5.4 shape and advances the
allocator by their number. -/
theorem detectBody_spec (returnsRef : Nat → Bool) (body : FnBody) (st : DetectState) :
    ∃ added, (detectBody returnsRef body st).2.newLocals = added ++ st.newLocals ∧
      (added = [] ↔ bodyHasRefCallStore returnsRef body = false) ∧
      (detectBody returnsRef body st).2.nextLocal = st.nextLocal + added.length := by
  obtain ⟨a1, h1, h2, h3⟩ := detectSeq_newLocals returnsRef body.entry false st
  obtain ⟨a2, g1, g2, g3⟩ :=
    detectFold_spec returnsRef body.others [] (detectSeq returnsRef body.entry false st).2
  refine ⟨a2 ++ a1, ?_, ?_, ?_⟩
  · simp only [detectBody]
    rw [g1, h1, List.append_assoc]
  · unfold bodyHasRefCallStore
    rw [seqTriggers_eq] at h2
    constructor
    · intro hempty
      rcases List.append_eq_nil.mp hempty with ⟨ha2, ha1⟩
      have hb1 := h2.mp ha1
      have hb2 := g2.mp ha2
      simp only [Bool.or_eq_false_iff]
      refine ⟨by simpa using hb1, ?_⟩
      simp only [List.any_eq_false]
      intro s hs
      have := hb2 s hs
      rw [seqTriggers_eq] at this
      simpa using this
    · intro hfalse
      simp only [Bool.or_eq_false_iff, List.any_eq_false] at hfalse
      obtain ⟨hb1, hb2⟩ := hfalse
      have ha1 : a1 = [] := h2.mpr (by simpa using hb1)
      have ha2 : a2 = [] := g2.mpr fun s hs => by
        rw [seqTriggers_eq]
        simpa using hb2 s hs
      simp [ha1, ha2]
  · simp only [detectBody]
    rw [g3, h3, List.length_append]
    omega

/-- A body with no reference-call store is returned unchanged. -/
theorem detectBody_no_store (returnsRef : Nat → Bool) (body : FnBody) (st : DetectState)
    (h : bodyHasRefCallStore returnsRef body = false) :
    detectBody returnsRef body st = (body, st) := by
  unfold bodyHasRefCallStore at h
  simp only [Bool.or_eq_false_iff, List.any_eq_false] at h
  obtain ⟨h1, h2⟩ := h
  have he : detectSeq returnsRef body.entry false st = (body.entry, st) := by
    apply detectSeq_no_trigger
    rw [seqTriggers_eq]
    simpa using h1
  have hf : ∀ (others : List InstrSeq) (accL : List InstrSeq),
      (∀ s ∈ others, hasRefCallStore returnsRef (s.map (·.1)) = false) →
      others.foldl (detectFoldStep returnsRef) (accL, st) =
        (others.reverse ++ accL, st) := by
    intro others
    induction others with
    | nil => intro accL _; simp
    | cons s rest ih =>
      intro accL hall
      have hs : detectSeq returnsRef s false st = (s, st) := by
        apply detectSeq_no_trigger
        rw [seqTriggers_eq]
        simpa using hall s (List.mem_cons_self s rest)
      simp only [List.foldl_cons, detectFoldStep, hs]
      rw [ih (s :: accL) fun t ht => hall t (List.mem_cons_of_mem s ht)]
      simp
  simp only [detectBody, he]
  rw [hf body.others [] fun s hs => by simpa using h2 s hs]
  simp

/-- C2: for a local function outside the catalog, call-site detection finds a
new reference local exactly when a reference-returning call is immediately
followed by a `local.set`/`local.tee`; in that case an unguarded function
fails with `UnexpectedCall` (the spec's `UnexpectedReferenceCall`) carrying
the function's name and entry code offset, while a guarded one succeeds with
its locals retyped in place; with no new locals the function is unchanged. -/
theorem transform_local_fn_spec (returnsRef : Nat → Bool) (name : Option Bytes)
    (nextLocal : Nat) (body : FnBody) :
    ((detectBody returnsRef body ⟨nextLocal, []⟩).2.newLocals ≠ [] ↔
      bodyHasRefCallStore returnsRef body = true) ∧
    ((detectBody returnsRef body ⟨nextLocal, []⟩).2.newLocals ≠ [] →
      transform_local_fn returnsRef false name nextLocal body =
        .error (.unexpectedCall name
          (function_offset (detectBody returnsRef body ⟨nextLocal, []⟩).1)) ∧
      ∃ out, transform_local_fn returnsRef true name nextLocal body = .ok out) ∧
    ((detectBody returnsRef body ⟨nextLocal, []⟩).2.newLocals = [] →
      ∀ canHaveLocals,
        transform_local_fn returnsRef canHaveLocals name nextLocal body =
          .ok (body, nextLocal)) := by
  obtain ⟨added, h1, h2, h3⟩ := detectBody_spec returnsRef body ⟨nextLocal, []⟩
  refine ⟨?_, ?_, ?_⟩
  · rw [h1]
    simp only [List.append_nil]
    constructor
    · intro hne
      by_contra hfalse
      have : bodyHasRefCallStore returnsRef body = false := by
        cases hb : bodyHasRefCallStore returnsRef body
        · rfl
        · exact absurd hb hfalse
      exact hne (h2.mpr this)
    · intro htrue hempty
      have := h2.mp hempty
      rw [htrue] at this
      cases this
  · intro hne
    constructor
    · simp only [transform_local_fn, if_neg hne]
      simp
    · refine ⟨(replaceBody
          (counterBody [] (detectBody returnsRef body ⟨nextLocal, []⟩).2.newLocals
            (detectBody returnsRef body ⟨nextLocal, []⟩).1)
          (detectBody returnsRef body ⟨nextLocal, []⟩).1,
        (detectBody returnsRef body ⟨nextLocal, []⟩).2.nextLocal), ?_⟩
      simp only [transform_local_fn, if_neg hne]
      simp
  · intro hempty canHaveLocals
    have hfalse : bodyHasRefCallStore returnsRef body = false := by
      rw [h1] at hempty
      simp only [List.append_nil] at hempty
      exact h2.mp hempty
    have hid := detectBody_no_store returnsRef body ⟨nextLocal, []⟩ hfalse
    simp only [transform_local_fn, hid]
    simp

/-- C2 witness: an unguarded function whose body stores the result of a
reference-returning call fails with `UnexpectedCall` at the entry offset. -/
theorem transform_local_fn_spec_witness :
    transform_local_fn (fun f => f == 7) false none 200
        ⟨[(.call 7, some 42), (.localSet 101, none)], []⟩ =
      .error (.unexpectedCall none (some 42)) := by
  have h := (transform_local_fn_spec (fun f => f == 7) none 200
    ⟨[(.call 7, some 42), (.localSet 101, none)], []⟩).2.1 (by decide)
  exact h.1

/-- `GuardPlacement.le` is reflexive. -/
theorem GuardPlacement.le_refl (a : GuardPlacement) : a.le a = true := by
  cases a with
  | correct => rfl
  | incorrect off => cases off <;> simp [GuardPlacement.le]

/-- `GuardPlacement.le` is total. -/
theorem GuardPlacement.le_total (a b : GuardPlacement) :
    a.le b = true ∨ b.le a = true := by
  cases a with
  | correct => exact Or.inl rfl
  | incorrect oa =>
    cases b with
    | correct => exact Or.inr rfl
    | incorrect ob =>
      cases oa with
      | none => exact Or.inl (by simp [GuardPlacement.le])
      | some x =>
        cases ob with
        | none => exact Or.inr (by simp [GuardPlacement.le])
        | some y =>
          rcases Nat.le_total x y with h | h
          · exact Or.inl (by simpa [GuardPlacement.le] using h)
          · exact Or.inr (by simpa [GuardPlacement.le] using h)

/-- `GuardPlacement.le` is transitive. -/
theorem GuardPlacement.le_trans {a b c : GuardPlacement}
    (hab : a.le b = true) (hbc : b.le c = true) : a.le c = true := by
  cases a with
  | correct => rfl
  | incorrect oa =>
    cases b with
    | correct => simp [GuardPlacement.le] at hab
    | incorrect ob =>
      cases c with
      | correct => simp [GuardPlacement.le] at hbc
      | incorrect oc =>
        cases oa with
        | none => simp [GuardPlacement.le]
        | some x =>
          cases ob with
          | none => simp [GuardPlacement.le] at hab
          | some y =>
            cases oc with
            | none => simp [GuardPlacement.le] at hbc
            | some z =>
              simp only [GuardPlacement.le] at hab hbc ⊢
              exact decide_eq_true (Nat.le_trans (of_decide_eq_true hab)
                (of_decide_eq_true hbc))

/-- Both arguments are below their `max`. -/
theorem GuardPlacement.le_max_left (a b : GuardPlacement) : a.le (a.max b) = true := by
  unfold GuardPlacement.max
  split
  · assumption
  · exact GuardPlacement.le_refl a

/-- Both arguments are below their `max`. -/
theorem GuardPlacement.le_max_right (a b : GuardPlacement) : b.le (a.max b) = true := by
  unfold GuardPlacement.max
  split
  · exact GuardPlacement.le_refl b
  · next h =>
    rcases GuardPlacement.le_total a b with h' | h'
    · exact absurd h' h
    · exact h'

/-- `max` returns one of its arguments. -/
theorem GuardPlacement.max_eq_or (a b : GuardPlacement) : a.max b = a ∨ a.max b = b := by
  unfold GuardPlacement.max
  split
  · exact Or.inr rfl
  · exact Or.inl rfl

/-- Folding `addPlacement` from a known placement yields the maximum. -/
theorem foldl_addPlacement_some (l : List GuardPlacement) (c : GuardPlacement) :
    ∃ r, List.foldl addPlacement (some c) l = some r ∧ (r ∈ l ∨ r = c) ∧
      c.le r = true ∧ ∀ q ∈ l, q.le r = true := by
  induction l generalizing c with
  | nil => exact ⟨c, rfl, Or.inr rfl, GuardPlacement.le_refl c, by simp⟩
  | cons p rest ih =>
    obtain ⟨r, h1, h2, h3, h4⟩ := ih (c.max p)
    refine ⟨r, h1, ?_, ?_, ?_⟩
    · rcases h2 with h | h
      · exact Or.inl (List.mem_cons_of_mem p h)
      · rcases GuardPlacement.max_eq_or c p with hm | hm
        · exact Or.inr (h.trans hm)
        · exact Or.inl (List.mem_cons.mpr (Or.inl (h.trans hm)))
    · exact GuardPlacement.le_trans (GuardPlacement.le_max_left c p) h3
    · intro q hq
      rcases List.mem_cons.mp hq with rfl | hq'
      · exact GuardPlacement.le_trans (GuardPlacement.le_max_right c q) h3
      · exact h4 q hq'

/-- Folding `addPlacement` from `none` over a nonempty list yields an element
that dominates the whole list. -/
theorem foldl_addPlacement_none {l : List GuardPlacement} (hne : l ≠ []) :
    ∃ r, List.foldl addPlacement none l = some r ∧ r ∈ l ∧
      ∀ q ∈ l, q.le r = true := by
  cases l with
  | nil => exact absurd rfl hne
  | cons p rest =>
    obtain ⟨r, h1, h2, h3, h4⟩ := foldl_addPlacement_some rest p
    refine ⟨r, h1, ?_, ?_⟩
    · rcases h2 with h | h
      · exact List.mem_cons_of_mem p h
      · exact h ▸ List.mem_cons_self p rest
    · intro q hq
      rcases List.mem_cons.mp hq with rfl | hq'
      · exact h3
      · exact h4 q hq'

/-- The guard scan removes exactly the guard calls and accumulates the
placements of the sequence. -/
theorem guardScanSeq_eq (g : Nat) (isEntry : Bool) (seq : InstrSeq) (idx : Nat)
    (prevGS : Bool) (acc : Option GuardPlacement) :
    guardScanSeq g isEntry seq idx prevGS acc =
      (eraseGuards g seq,
        List.foldl addPlacement acc (seqPlacements g isEntry seq idx prevGS)) := by
  induction seq generalizing idx prevGS acc with
  | nil => rfl
  | cons li rest ih =>
    obtain ⟨instr, loc⟩ := li
    cases instr with
    | call f =>
      by_cases hf : f = g
      · subst hf
        simp [guardScanSeq, seqPlacements, eraseGuards, isGuardCall, ih,
          List.filter_cons, Bool.and_eq_true, Bool.or_eq_true, beq_iff_eq]
      · simp [guardScanSeq, seqPlacements, eraseGuards, isGuardCall, hf, ih,
          List.filter_cons]
    | localGet l =>
      simp [guardScanSeq, seqPlacements, eraseGuards, isGuardCall, ih, List.filter_cons]
    | localSet l =>
      simp [guardScanSeq, seqPlacements, eraseGuards, isGuardCall, ih, List.filter_cons]
    | localTee l =>
      simp [guardScanSeq, seqPlacements, eraseGuards, isGuardCall, ih, List.filter_cons]
    | globalSet gl =>
      simp [guardScanSeq, seqPlacements, eraseGuards, isGuardCall, ih, List.filter_cons]
    | other =>
      simp [guardScanSeq, seqPlacements, eraseGuards, isGuardCall, ih, List.filter_cons]

/-- The fold over the non-entry sequences erases guards and accumulates all
their placements. -/
theorem guardFold_eq (g : Nat) (others : List InstrSeq) (accL : List InstrSeq)
    (acc : Option GuardPlacement) :
    others.foldl (guardFoldStep g) (accL, acc) =
      ((others.map (eraseGuards g)).reverse ++ accL,
        List.foldl addPlacement acc
          ((others.map fun s => seqPlacements g false s 0 false).flatten)) := by
  induction others generalizing accL acc with
  | nil => simp
  | cons s rest ih =>
    simp only [List.foldl_cons, guardFoldStep, guardScanSeq_eq, List.map_cons,
      List.flatten, List.foldl_append]
    rw [ih]
    simp

/-- `remove_guards` in terms of the accumulated maximum placement. -/
theorem remove_guards_eq (g : Nat) (name : Option Bytes) (body : FnBody) :
    remove_guards g name body =
      (match List.foldl addPlacement none (bodyPlacements g body) with
        | none =>
          .ok (false, ⟨eraseGuards g body.entry, body.others.map (eraseGuards g)⟩)
        | some .correct =>
          .ok (true, ⟨eraseGuards g body.entry, body.others.map (eraseGuards g)⟩)
        | some (.incorrect off) => .error (.incorrectGuard name off)) := by
  unfold remove_guards
  simp only [guardScanSeq_eq, guardFold_eq, bodyPlacements, List.foldl_append]
  simp

/-- All-guard classification of a non-entry sequence is `incorrect`. -/
theorem seqPlacements_nonentry (g : Nat) (seq : InstrSeq) (idx : Nat) (prevGS : Bool) :
    ∀ p ∈ seqPlacements g false seq idx prevGS, ∃ off, p = .incorrect off := by
  induction seq generalizing idx prevGS with
  | nil => simp [seqPlacements]
  | cons li rest ih =>
    obtain ⟨instr, loc⟩ := li
    intro p hp
    simp only [seqPlacements] at hp
    by_cases hg : isGuardCall g instr
    · rw [if_pos hg] at hp
      rcases List.mem_append.mp hp with h | h
      · rcases List.mem_singleton.mp h with rfl
        exact ⟨loc, by simp⟩
      · exact ih (idx + 1) instr.isGlobalSet p h
    · rw [if_neg hg] at hp
      simp only [List.nil_append] at hp
      exact ih (idx + 1) instr.isGlobalSet p hp

/-- A sequence produces no placements iff it has no guard call. -/
theorem seqPlacements_eq_nil_iff (g : Nat) (isEntry : Bool) (seq : InstrSeq)
    (idx : Nat) (prevGS : Bool) :
    seqPlacements g isEntry seq idx prevGS = [] ↔ seqHasGuard g seq = false := by
  induction seq generalizing idx prevGS with
  | nil => simp [seqPlacements, seqHasGuard]
  | cons li rest ih =>
    obtain ⟨instr, loc⟩ := li
    by_cases hg : isGuardCall g instr
    · simp [seqPlacements, seqHasGuard, hg]
    · simp [seqPlacements, seqHasGuard, hg, ih]

/-- All entry placements are `correct` iff every guard call in the sequence
is the first instruction or immediately preceded by a `global.set`. -/
theorem seqPlacements_entry_correct_iff (g : Nat) (seq : InstrSeq) (idx : Nat)
    (prevGS : Bool) :
    (∀ p ∈ seqPlacements g true seq idx prevGS, p = .correct) ↔
      entrySeqGuardsOk g seq (decide (idx = 0) || prevGS) = true := by
  induction seq generalizing idx prevGS with
  | nil => simp [seqPlacements, entrySeqGuardsOk]
  | cons li rest ih =>
    obtain ⟨instr, loc⟩ := li
    have hrest := ih (idx + 1) instr.isGlobalSet
    have hidx1 : (decide (idx + 1 = 0) || instr.isGlobalSet) = instr.isGlobalSet := by
      simp
    rw [hidx1] at hrest
    have hbeq : (idx == 0) = decide (idx = 0) := by
      by_cases h : idx = 0 <;> simp [h]
    by_cases hg : isGuardCall g instr
    · simp only [seqPlacements, entrySeqGuardsOk, if_pos hg, hg, if_true,
        Bool.true_and, List.singleton_append, List.mem_cons, hbeq]
      cases hok : (decide (idx = 0) || prevGS) with
      | true =>
        simp only [Bool.true_and]
        rw [← hrest]
        constructor
        · intro h p hp
          exact h p (Or.inr hp)
        · intro h p hp
          rcases hp with rfl | hp
          · rfl
          · exact h p hp
      | false =>
        simp only [Bool.false_and]
        constructor
        · intro h
          have := h _ (Or.inl rfl)
          simp at this
        · intro h
          cases h
    · simp only [seqPlacements, entrySeqGuardsOk, if_neg hg, hg, if_false,
        Bool.true_and, List.nil_append]
      exact hrest

/-- C4: a function containing guard calls is accepted (classified guarded,
guard calls removed) exactly when every guard call is in the entry sequence
and is either the first instruction or immediately preceded by a
`global.set`; otherwise processing fails with `IncorrectGuard` (the spec's
`MisplacedGuard`) carrying the function's name and the offset of a misplaced
guard. -/
theorem remove_guards_spec (g : Nat) (name : Option Bytes) (body : FnBody)
    (hg : seqHasGuard g body.entry = true ∨ ∃ s ∈ body.others, seqHasGuard g s = true) :
    ((entrySeqGuardsOk g body.entry true = true ∧
        (∀ s ∈ body.others, seqHasGuard g s = false)) →
      remove_guards g name body =
        .ok (true, ⟨eraseGuards g body.entry, body.others.map (eraseGuards g)⟩)) ∧
    ((entrySeqGuardsOk g body.entry true = false ∨
        (∃ s ∈ body.others, seqHasGuard g s = true)) →
      ∃ off, remove_guards g name body = .error (.incorrectGuard name off) ∧
        off ∈ misplacedOffsets g body) := by
  constructor
  · rintro ⟨hok, hothers⟩
    have hothersNil :
        (body.others.map fun s => seqPlacements g false s 0 false).flatten = [] := by
      simp only [List.flatten_eq_nil_iff]
      intro l hl
      rcases List.mem_map.mp hl with ⟨s, hs, rfl⟩
      exact (seqPlacements_eq_nil_iff g false s 0 false).mpr (hothers s hs)
    have hbody : bodyPlacements g body = seqPlacements g true body.entry 0 false := by
      unfold bodyPlacements
      rw [hothersNil, List.append_nil]
    have hentryHas : seqHasGuard g body.entry = true := by
      rcases hg with h | ⟨s, hs, h⟩
      · exact h
      · exact absurd (hothers s hs) (by simp [h])
    have hne : bodyPlacements g body ≠ [] := by
      rw [hbody]
      intro hnil
      have := (seqPlacements_eq_nil_iff g true body.entry 0 false).mp hnil
      simp [hentryHas] at this
    have hallcorrect : ∀ p ∈ bodyPlacements g body, p = .correct := by
      rw [hbody]
      apply (seqPlacements_entry_correct_iff g body.entry 0 false).mpr
      simpa using hok
    obtain ⟨r, h1, h2, _⟩ := foldl_addPlacement_none hne
    rw [remove_guards_eq, h1, hallcorrect r h2]
  · intro hbad
    have hincorrect : ∃ p ∈ bodyPlacements g body, ∃ off, p = .incorrect off := by
      rcases hbad with hok | ⟨s, hs, hhas⟩
      · have := (not_iff_not.mpr (seqPlacements_entry_correct_iff g body.entry 0 false))
        simp only [Bool.false_or, decide_True] at this ⊢
        have hnot : ¬ ∀ p ∈ seqPlacements g true body.entry 0 false, p = .correct := by
          apply this.mpr
          simp [hok]
        push_neg at hnot
        obtain ⟨p, hp, hpc⟩ := hnot
        refine ⟨p, ?_, ?_⟩
        · unfold bodyPlacements
          exact List.mem_append.mpr (Or.inl hp)
        · cases p with
          | correct => exact absurd rfl hpc
          | incorrect off => exact ⟨off, rfl⟩
      · have hne : seqPlacements g false s 0 false ≠ [] := by
          intro hnil
          have := (seqPlacements_eq_nil_iff g false s 0 false).mp hnil
          simp [hhas] at this
        obtain ⟨p, hp⟩ := List.exists_mem_of_ne_nil _ hne
        refine ⟨p, ?_, seqPlacements_nonentry g s 0 false p hp⟩
        unfold bodyPlacements
        refine List.mem_append.mpr (Or.inr ?_)
        exact List.mem_flatten.mpr ⟨_, List.mem_map.mpr ⟨s, hs, rfl⟩, hp⟩
    obtain ⟨p0, hp0, off0, rfl⟩ := hincorrect
    have hne : bodyPlacements g body ≠ [] := List.ne_nil_of_mem hp0
    obtain ⟨r, h1, h2, h3⟩ := foldl_addPlacement_none hne
    have hr : ∃ off, r = GuardPlacement.incorrect off := by
      have := h3 _ hp0
      cases r with
      | correct => simp [GuardPlacement.le] at this
      | incorrect off => exact ⟨off, rfl⟩
    obtain ⟨off, rfl⟩ := hr
    refine ⟨off, ?_, ?_⟩
    · rw [remove_guards_eq, h1]
    · unfold misplacedOffsets
      exact List.mem_filterMap.mpr ⟨_, h2, rfl⟩

/-- C4 witness: a guard call immediately after a `global.set` in the entry
sequence is accepted and removed; the function is classified guarded. -/
theorem remove_guards_spec_witness :
    remove_guards 9 (some (strBytes "f")) ⟨[(.globalSet 0, none), (.call 9, some 11)], []⟩ =
      .ok (true, ⟨[(.globalSet 0, none)], []⟩) := by
  have h := (remove_guards_spec 9 (some (strBytes "f"))
    ⟨[(.globalSet 0, none), (.call 9, some 11)], []⟩ (Or.inl (by decide))).1
    ⟨by decide, by simp⟩
  simpa [eraseGuards, isGuardCall] using h

/-- Reading back a written `u32`: little-endian reassembly is truncation
modulo `2^32`. -/
theorem read_u32_u32le (v : Nat) (rest : Bytes) (ctx : String) :
    read_u32 (u32le v ++ rest) ctx = .ok (v % 2 ^ 32, rest) := by
  unfold read_u32 u32le
  rw [if_neg (by simp)]
  simp only [List.cons_append, List.nil_append, List.getD_cons_zero,
    List.getD_cons_succ, List.drop_succ_cons, List.drop_zero]
  have : v % 256 + 256 * (v / 256 % 256) + 256 ^ 2 * (v / 256 ^ 2 % 256)
      + 256 ^ 3 * (v / 256 ^ 3 % 256) = v % 2 ^ 32 := by
    have h1 : (256 : Nat) ^ 2 = 65536 := by norm_num
    have h2 : (256 : Nat) ^ 3 = 16777216 := by norm_num
    have h3 : (2 : Nat) ^ 32 = 4294967296 := by norm_num
    rw [h1, h2, h3]
    omega
  rw [this]

/-- Reading back a written length-prefixed string. -/
theorem read_str_encode (name rest : Bytes) (ctx : String)
    (hlen : name.length < 2 ^ 32) (hutf : validUtf8 name = true) :
    read_str (u32le name.length ++ (name ++ rest)) ctx = .ok (name, rest) := by
  unfold read_str
  simp only [read_u32_u32le, Nat.mod_eq_of_lt hlen]
  rw [if_neg (by simp)]
  rw [List.take_left, List.drop_left]
  rw [if_pos hutf]

/-- Reading back a written bit slice whose storage is exactly
`ceil(bit_len/8)` bytes. -/
theorem bitSlice_read_encode (s : BitSlice) (rest : Bytes) (ctx : String)
    (hbl : s.bitLen < 2 ^ 32) (hlen : s.bytes.length = (s.bitLen + 7) / 8) :
    BitSlice.read_from_section (u32le s.bitLen ++ (s.bytes ++ rest)) ctx =
      .ok (s, rest) := by
  unfold BitSlice.read_from_section
  simp only [read_u32_u32le, Nat.mod_eq_of_lt hbl]
  rw [if_neg (by simp [← hlen])]
  rw [← hlen, List.take_left, List.drop_left]

/-- Reading back a written function kind. -/
theorem kind_read_encode (k : FunctionKind) (rest : Bytes)
    (hwf : match k with
      | .exported => True
      | .imported m => m.length < MAX_WORD ∧ validUtf8 m = true) :
    FunctionKind.read_from_section (k.write_to_custom_section ++ rest) =
      .ok (k, rest) := by
  cases k with
  | exported =>
    unfold FunctionKind.read_from_section FunctionKind.write_to_custom_section u32le
    rw [if_pos (by norm_num)]
    norm_num
  | imported m =>
    obtain ⟨hm, hutf⟩ := hwf
    have hmod : m.length % 2 ^ 32 = m.length :=
      Nat.mod_eq_of_lt (by unfold MAX_WORD at hm; omega)
    unfold FunctionKind.read_from_section FunctionKind.write_to_custom_section
    rw [if_neg ?notExport]
    case notExport =>
      rintro ⟨-, htake⟩
      rw [List.append_assoc] at htake
      unfold u32le at htake
      simp only [List.cons_append, List.nil_append, List.take_succ_cons,
        List.take_zero, List.cons.injEq, and_true] at htake
      obtain ⟨h0, h1, h2, h3⟩ := htake
      unfold MAX_WORD at hm
      omega
    rw [List.append_assoc]
    simp only [hmod, read_str_encode m rest "module name"
      (by unfold MAX_WORD at hm; omega) hutf]

/-- C5 (single entry): parsing the bytes produced by encoding a well-formed
catalog entry yields the entry back, consuming exactly its encoding. -/
theorem function_read_encode (f : Function) (rest : Bytes) (hwf : f.WF) :
    Function.read_from_section (f.custom_section ++ rest) = .ok (f, rest) := by
  obtain ⟨hkind, hnlen, hnutf, hbl, hblen, -⟩ := hwf
  unfold Function.custom_section
  unfold Function.read_from_section
  rw [show f.kind.write_to_custom_section ++ u32le (f.name.length % 2 ^ 32) ++ f.name
        ++ u32le (f.externrefs.bitLen % 2 ^ 32) ++ f.externrefs.bytes ++ rest
      = f.kind.write_to_custom_section ++ (u32le (f.name.length % 2 ^ 32) ++
          (f.name ++ (u32le (f.externrefs.bitLen % 2 ^ 32) ++
            (f.externrefs.bytes ++ rest)))) by simp [List.append_assoc]]
  simp only [kind_read_encode f.kind _ hkind, Nat.mod_eq_of_lt hnlen,
    read_str_encode f.name _ "function name" hnlen hnutf, Nat.mod_eq_of_lt hbl,
    bitSlice_read_encode f.externrefs rest _ hbl hblen]

/-- The encoding of an entry is never empty (its kind tag is four bytes). -/
theorem custom_section_ne_nil (f : Function) : f.custom_section ≠ [] := by
  unfold Function.custom_section FunctionKind.write_to_custom_section u32le
  cases f.kind <;> simp

/-- C5: parsing the bytes produced by encoding a well-formed entry yields the
entry back; parsing a concatenation of encoded entries consumes the buffer
exactly and yields the original sequence. -/
theorem custom_section_roundtrip (f : Function) (rest : Bytes) (fs : List Function)
    (hf : f.WF) (hfs : ∀ g ∈ fs, g.WF) :
    Function.read_from_section (f.custom_section ++ rest) = .ok (f, rest) ∧
    parse_section (fs.map Function.custom_section).flatten = .ok fs := by
  refine ⟨function_read_encode f rest hf, ?_⟩
  clear hf
  induction fs with
  | nil =>
    rw [parse_section]
    simp
  | cons g gs ih =>
    have hg := hfs g (List.mem_cons_self g gs)
    have hgs := fun t ht => hfs t (List.mem_cons_of_mem g ht)
    rw [parse_section]
    rw [if_neg ?nonempty]
    case nonempty =>
      simp only [List.map_cons, List.flatten_cons]
      intro hnil
      exact custom_section_ne_nil g (List.append_eq_nil.mp hnil).1
    simp only [List.map_cons, List.flatten_cons]
    split
    · rename_i e heq
      rw [function_read_encode g _ hg] at heq
      cases heq
    · rename_i f' rest' heq
      rw [function_read_encode g _ hg] at heq
      cases heq
      rw [ih hgs]

/-- C5 witness: the catalog entry of the source's own serialization test
(`Import("module")`, name `"test"`, bit 1 of 3 set) round-trips alone and in
a two-entry concatenation. -/
theorem custom_section_roundtrip_witness :
    Function.read_from_section
        ((⟨.imported (strBytes "module"), strBytes "test", ⟨[2], 3⟩⟩ : Function).custom_section
          ++ []) =
      .ok ((⟨.imported (strBytes "module"), strBytes "test", ⟨[2], 3⟩⟩ : Function), []) ∧
    parse_section
        (([⟨.imported (strBytes "module"), strBytes "test", ⟨[2], 3⟩⟩,
           ⟨.exported, strBytes "test", ⟨[2], 3⟩⟩] : List Function).map
          Function.custom_section).flatten =
      .ok [⟨.imported (strBytes "module"), strBytes "test", ⟨[2], 3⟩⟩,
           ⟨.exported, strBytes "test", ⟨[2], 3⟩⟩] :=
  custom_section_roundtrip _ [] _
    ⟨⟨by decide, by decide⟩, by decide, by decide, by decide, by decide, by decide⟩
    (by
      intro g hg
      rcases List.mem_cons.mp hg with rfl | hg'
      · exact ⟨⟨by decide, by decide⟩, by decide, by decide, by decide, by decide, by decide⟩
      · rcases List.mem_singleton.mp hg' with rfl
        exact ⟨trivial, by decide, by decide, by decide, by decide, by decide⟩)

/-- C9: a catalog entry of `Import` kind whose `(module, name)` pair is not
among the module's imports resolves to `none` without an error; resolution of
a catalog containing it errs exactly when the remaining entries err (with the
same error), the missing entry contributing `none` at its position; and the
type-patching loop skips the entry entirely (no module change) and continues
with the remaining entries. -/
theorem function_id_missing_import_spec (core : ModuleCore) (moduleName nm : Bytes)
    (ex : BitSlice) (hmiss : findImport core.imports moduleName nm = none) :
    function_id ⟨.imported moduleName, nm, ex⟩ core = .ok none ∧
    (∀ fs1 fs2 : List Function,
      resolveIds core (fs1 ++ ⟨.imported moduleName, nm, ex⟩ :: fs2) =
        (match resolveIds core fs1, resolveIds core fs2 with
          | .ok l1, .ok l2 => .ok (l1 ++ none :: l2)
          | .error e, _ => .error e
          | .ok _, .error e => .error e)) ∧
    (∀ rest set c,
      processEntriesGo ((⟨⟨.imported moduleName, nm, ex⟩, none⟩ : Function × Option Nat)
          :: rest) set c =
        processEntriesGo rest set c) := by
  have hid : function_id ⟨.imported moduleName, nm, ex⟩ core = .ok none := by
    unfold function_id
    simp only [hmiss]
  refine ⟨hid, ?_, ?_⟩
  · intro fs1 fs2
    induction fs1 with
    | nil =>
      simp only [List.nil_append, resolveIds, hid]
      cases resolveIds core fs2 <;> rfl
    | cons g gs ih =>
      simp only [List.cons_append, resolveIds, List.append_eq]
      cases hg : function_id g core with
      | error e => rfl
      | ok id =>
        rw [ih]
        cases h1 : resolveIds core gs with
        | error e => rfl
        | ok ids =>
          cases h2 : resolveIds core fs2 with
          | error e => rfl
          | ok l2 => rfl
  · intro rest set c
    rfl

/-- C9 witness: an import entry absent from a module with no imports resolves
to `none`, contributes `none` between resolved neighbours, and is skipped by
the patching loop. -/
theorem function_id_missing_import_spec_witness :
    function_id ⟨.imported (strBytes "host"), strBytes "missing", ⟨[], 0⟩⟩
        ⟨[], [], [], [], 0, 0⟩ = .ok none ∧
    resolveIds ⟨[], [], [], [], 0, 0⟩
        [⟨.imported (strBytes "host"), strBytes "missing", ⟨[], 0⟩⟩] =
      .ok [none] := by
  have h := function_id_missing_import_spec ⟨[], [], [], [], 0, 0⟩
    (strBytes "host") (strBytes "missing") ⟨[], 0⟩ (by decide)
  refine ⟨h.1, ?_⟩
  have h2 := h.2.1 [] []
  simpa using h2

/-- `remove_raw` and the count of reserved sections: absent, or removed
exactly one. -/
theorem removeRaw_countP (name : Bytes) (customs : List (Bytes × Bytes)) :
    (match removeRaw name customs with
      | none => customs.countP (fun c => c.1 == name) = 0
      | some pr =>
        customs.countP (fun c => c.1 == name) =
          pr.2.countP (fun c => c.1 == name) + 1) := by
  induction customs with
  | nil => simp [removeRaw]
  | cons c rest ih =>
    obtain ⟨n, d⟩ := c
    by_cases hn : (n == name) = true
    · simp [removeRaw, hn, List.countP_cons]
    · cases hr : removeRaw name rest with
      | none =>
        rw [hr] at ih
        simp [removeRaw, hr, hn, List.countP_cons, ih]
      | some pr =>
        rw [hr] at ih
        simp only [removeRaw, hr, hn, Bool.false_eq_true, if_false,
          Option.map_some', List.countP_cons]
        omega

/-- C10: `process` removes the reserved custom section as its very first
step: on every outcome (success, error, panic) the returned module's custom
sections are the input's with the first reserved section removed, so a module
that contained the section (once, as emitted) no longer contains it; and when
no reserved section is present, `process` succeeds with the module completely
unmodified (no reference table, no other change). -/
theorem process_spec (p : Processor) (m : Module) :
    ((Processor.process p m).2.customs =
      (match removeRaw CUSTOM_SECTION_NAME m.customs with
        | some pr => pr.2
        | none => m.customs)) ∧
    (m.customs.countP (fun c => c.1 == CUSTOM_SECTION_NAME) ≤ 1 →
      (Processor.process p m).2.customs.countP
        (fun c => c.1 == CUSTOM_SECTION_NAME) = 0) ∧
    (removeRaw CUSTOM_SECTION_NAME m.customs = none →
      Processor.process p m = (.ok (), m)) ∧
    (removeRaw CUSTOM_SECTION_NAME m.customs = none ↔
      ∀ c ∈ m.customs, (c.1 == CUSTOM_SECTION_NAME) = false) := by
  have hcount := removeRaw_countP CUSTOM_SECTION_NAME m.customs
  have hmain : (Processor.process p m).2.customs =
      (match removeRaw CUSTOM_SECTION_NAME m.customs with
        | some pr => pr.2
        | none => m.customs) ∧
      (removeRaw CUSTOM_SECTION_NAME m.customs = none →
        Processor.process p m = (.ok (), m)) := by
    unfold Processor.process
    cases hrw : removeRaw CUSTOM_SECTION_NAME m.customs with
    | none => exact ⟨rfl, fun _ => rfl⟩
    | some pr =>
      obtain ⟨data, customs'⟩ := pr
      refine ⟨?_, fun h => by cases h⟩
      simp only
      split
      · rfl
      · split
        · rfl
        · split
          · rfl
          · split <;> rfl
  refine ⟨hmain.1, ?_, hmain.2, ?_⟩
  · intro hle
    rw [hmain.1]
    cases hrw : removeRaw CUSTOM_SECTION_NAME m.customs with
    | none =>
      rw [hrw] at hcount
      exact hcount
    | some pr =>
      rw [hrw] at hcount
      show pr.2.countP (fun c => c.1 == CUSTOM_SECTION_NAME) = 0
      omega
  · cases hrw : removeRaw CUSTOM_SECTION_NAME m.customs with
    | none =>
      rw [hrw] at hcount
      constructor
      · intro _ c hc
        have := List.countP_eq_zero.mp hcount c hc
        simpa using this
      · intro _
        rfl
    | some pr =>
      rw [hrw] at hcount
      constructor
      · intro h
        cases h
      · intro hall
        exfalso
        have : m.customs.countP (fun c => c.1 == CUSTOM_SECTION_NAME) = 0 :=
          List.countP_eq_zero.mpr fun c hc => by simp [hall c hc]
        omega

/-- C10 witness: a module without the reserved section is returned unchanged
with success. -/
theorem process_spec_witness :
    Processor.process Processor.default ⟨[], ⟨[], [], [], [], 0, 0⟩⟩ =
      (.ok (), ⟨[], ⟨[], [], [], [], 0, 0⟩⟩) :=
  (process_spec Processor.default ⟨[], ⟨[], [], [], [], 0, 0⟩⟩).2.2.1 rfl

/-! ### Association-list lemmas for the retyping plan -/

/-- Looking up the updated key sees the update. -/
theorem lookup_aupdate_self {α : Type} (a : Nat) (f : α → α) (l : List (Nat × α)) :
    List.lookup a (aupdate a f l) = (List.lookup a l).map f := by
  induction l with
  | nil => rfl
  | cons p rest ih =>
    obtain ⟨k, v⟩ := p
    by_cases hk : k = a
    · subst hk
      simp [aupdate, List.lookup]
    · have h1 : (a == k) = false := beq_eq_false_iff_ne.mpr fun h => hk h.symm
      simp [aupdate, List.lookup, hk, ih, h1]

/-- Looking up a different key is unaffected by an update. -/
theorem lookup_aupdate_ne {α : Type} {a b : Nat} (hne : b ≠ a) (f : α → α)
    (l : List (Nat × α)) :
    List.lookup b (aupdate a f l) = List.lookup b l := by
  induction l with
  | nil => rfl
  | cons p rest ih =>
    obtain ⟨k, v⟩ := p
    by_cases hk : k = a
    · subst hk
      have h1 : (b == k) = false := beq_eq_false_iff_ne.mpr hne
      simp [aupdate, List.lookup, h1]
    · by_cases hb : k = b
      · subst hb
        simp [aupdate, List.lookup, hk]
      · have h1 : (b == k) = false := beq_eq_false_iff_ne.mpr fun h => hb h.symm
        simp [aupdate, List.lookup, hk, h1, ih]

/-- The identity update is the identity. -/
theorem aupdate_id {α : Type} (a : Nat) (l : List (Nat × α)) :
    aupdate a (fun x => x) l = l := by
  induction l with
  | nil => rfl
  | cons p rest ih =>
    obtain ⟨k, v⟩ := p
    by_cases hk : k = a <;> simp [aupdate, hk, ih]

/-- Mapping a value abstraction over an update: when the abstraction
translates the update to `φ`, the abstraction of the update is the update of
the abstraction. -/
theorem curOf_aupdate (a : Nat) (g : LocalState → LocalState)
    (φ : Option Nat → Option Nat)
    (hφ : ∀ s, (g s).currentReplacement = φ s.currentReplacement)
    (locals : List (Nat × LocalState)) :
    curOf (aupdate a g locals) = aupdate a φ (curOf locals) := by
  induction locals with
  | nil => rfl
  | cons p rest ih =>
    obtain ⟨k, v⟩ := p
    by_cases hk : k = a
    · subst hk
      simp [aupdate, curOf, hφ, ih]
    · simp only [aupdate, curOf, hk, if_false, List.map_cons]
      exact congrArg (List.cons _) ih

/-- `curOf` and `lookup` commute. -/
theorem lookup_curOf (a : Nat) (locals : List (Nat × LocalState)) :
    List.lookup a (curOf locals) =
      (List.lookup a locals).map (·.currentReplacement) := by
  induction locals with
  | nil => rfl
  | cons p rest ih =>
    obtain ⟨k, v⟩ := p
    by_cases hk : k = a
    · subst hk
      simp [curOf, List.lookup]
    · have h1 : (a == k) = false := beq_eq_false_iff_ne.mpr fun h => hk h.symm
      simp only [curOf, List.map_cons, List.lookup, h1]
      exact ih

/-- An update that does not touch the recorded lists leaves `recsOf`
unchanged. -/
theorem recsOf_aupdate_current (a : Nat) (g : LocalState → LocalState)
    (hg : ∀ s, (g s).replacements = s.replacements)
    (locals : List (Nat × LocalState)) (L k : Nat) :
    recsOf (aupdate a g locals) L k = recsOf locals L k := by
  by_cases hL : L = a
  · subst hL
    unfold recsOf
    rw [lookup_aupdate_self]
    cases List.lookup L locals with
    | none => rfl
    | some st => simp [hg]
  · unfold recsOf
    rw [lookup_aupdate_ne hL]

/-- Pushing onto the per-sequence record list appends under the pushed key
and leaves the others alone. -/
theorem lookup_recordPush_self (k : Nat) (v : Option Nat)
    (reps : List (Nat × List (Option Nat))) :
    List.lookup k (recordPush k v reps) =
      some ((List.lookup k reps).getD [] ++ [v]) := by
  induction reps with
  | nil => simp [recordPush, List.lookup]
  | cons p rest ih =>
    obtain ⟨s, lst⟩ := p
    by_cases hs : s = k
    · subst hs
      simp [recordPush, List.lookup]
    · have h1 : (k == s) = false := beq_eq_false_iff_ne.mpr fun h => hs h.symm
      simp [recordPush, List.lookup, hs, h1, ih]

/-- Pushing onto the per-sequence record list appends under the pushed key
and leaves the others alone. -/
theorem lookup_recordPush_ne {k j : Nat} (hne : j ≠ k) (v : Option Nat)
    (reps : List (Nat × List (Option Nat))) :
    List.lookup j (recordPush k v reps) = List.lookup j reps := by
  induction reps with
  | nil =>
    have h1 : (j == k) = false := beq_eq_false_iff_ne.mpr hne
    simp [recordPush, List.lookup, h1]
  | cons p rest ih =>
    obtain ⟨s, lst⟩ := p
    by_cases hs : s = k
    · subst hs
      have h1 : (j == s) = false := beq_eq_false_iff_ne.mpr hne
      simp [recordPush, List.lookup, h1]
    · by_cases hj : s = j
      · subst hj
        simp [recordPush, List.lookup, hs]
      · have h1 : (j == s) = false := beq_eq_false_iff_ne.mpr fun h => hj h.symm
        simp [recordPush, List.lookup, hs, h1, ih]

/-- One sequence of `LocalReplacementCounter` against the spec pass: the
final substitutions agree, the `new_locals` map is untouched, records of
other sequences are untouched, and the records of this sequence are extended
by exactly the occurrences the spec registers, in textual order. -/
theorem counterSeq_spec (newLocals : List (Nat × Nat)) (k : Nat) (seq : InstrSeq)
    (C : CounterState) (hnl : C.newLocals = newLocals) :
    curOf (counterSeq k C seq).locals =
      (specExec newLocals seq (curOf C.locals)).2.2 ∧
    (counterSeq k C seq).newLocals = newLocals ∧
    (∀ L j, j ≠ k → recsOf (counterSeq k C seq).locals L j = recsOf C.locals L j) ∧
    (∀ L, recsOf (counterSeq k C seq).locals L k =
      recsOf C.locals L k ++
        ((specExec newLocals seq (curOf C.locals)).1.filter
          (fun e => e.1 == L)).map (·.2)) := by
  induction seq generalizing C with
  | nil =>
    refine ⟨rfl, hnl, fun L j _ => rfl, fun L => by simp [counterSeq, specExec]⟩
  | cons li rest ih =>
    obtain ⟨i, loc⟩ := li
    have hstep : counterSeq k C ((i, loc) :: rest) =
        counterSeq k (counterVisit k C i) rest := rfl
    cases i with
    | localGet l =>
      cases hl : List.lookup l C.locals with
      | some state =>
        have hcur : List.lookup l (curOf C.locals) = some state.currentReplacement := by
          rw [lookup_curOf, hl]; rfl
        have hvisit : counterVisit k C (.localGet l) =
            { C with locals :=
                (aupdate l
                  (fun s =>
                    { s with replacements :=
                        recordPush k state.currentReplacement s.replacements })
                  C.locals) } := by
          simp only [counterVisit]
          rw [hl]
        have hcurEq : curOf (counterVisit k C (.localGet l)).locals = curOf C.locals := by
          rw [hvisit]
          simp only
          rw [curOf_aupdate l
            (fun s =>
              { s with replacements :=
                  recordPush k state.currentReplacement s.replacements })
            (fun x => x) (fun s => rfl), aupdate_id]
        have hnl' : (counterVisit k C (.localGet l)).newLocals = newLocals := by
          rw [hvisit]; exact hnl
        obtain ⟨g1, g2, g3, g4⟩ := ih (counterVisit k C (.localGet l)) hnl'
        rw [hcurEq] at g1 g4
        have hrecK : ∀ L, recsOf (counterVisit k C (.localGet l)).locals L k =
            recsOf C.locals L k ++ (if l = L then [state.currentReplacement] else []) := by
          intro L
          rw [hvisit]
          by_cases hL : L = l
          · subst hL
            unfold recsOf
            rw [lookup_aupdate_self, hl]
            simp [lookup_recordPush_self]
          · unfold recsOf
            rw [lookup_aupdate_ne hL]
            have hne : l ≠ L := fun h => hL h.symm
            simp [hne]

        have hrecJ : ∀ L j, j ≠ k →
            recsOf (counterVisit k C (.localGet l)).locals L j = recsOf C.locals L j := by
          intro L j hj
          rw [hvisit]
          by_cases hL : L = l
          · subst hL
            unfold recsOf
            rw [lookup_aupdate_self, hl]
            simp [lookup_recordPush_ne hj]
          · unfold recsOf
            rw [lookup_aupdate_ne hL]
        refine ⟨?_, g2, ?_, ?_⟩
        · rw [hstep, g1]
          simp only [specExec, hcur]
        · intro L j hj
          rw [hstep, g3 L j hj, hrecJ L j hj]
        · intro L
          rw [hstep, g4 L, hrecK L]
          simp only [specExec, hcur]
          by_cases hL : l = L
          · subst hL
            simp [List.filter_cons, List.append_assoc]
          · have h1 : (l == L) = false := beq_eq_false_iff_ne.mpr hL
            simp [List.filter_cons, h1, hL, List.append_assoc]
      | none =>
        have hcur : List.lookup l (curOf C.locals) = none := by
          rw [lookup_curOf, hl]; rfl
        have hvisit : counterVisit k C (.localGet l) = C := by
          simp only [counterVisit]
          rw [hl]
        obtain ⟨g1, g2, g3, g4⟩ := ih C hnl
        refine ⟨?_, ?_, ?_, ?_⟩
        · rw [hstep, hvisit, g1]
          simp only [specExec, hcur]
        · rw [hstep, hvisit]
          exact g2
        · intro L j hj
          rw [hstep, hvisit, g3 L j hj]
        · intro L
          rw [hstep, hvisit, g4 L]
          simp only [specExec, hcur]
    | localSet l =>
      have hvisit : counterVisit k C (.localSet l) = counterAssign l C := rfl
      have hassign : curOf (counterAssign l C).locals =
          specAssign newLocals (curOf C.locals) l ∧
          (counterAssign l C).newLocals = newLocals ∧
          ∀ L j, recsOf (counterAssign l C).locals L j = recsOf C.locals L j := by
        cases hl : List.lookup l C.locals with
        | some state =>
          have hvis : counterAssign l C =
              { C with locals :=
                  (aupdate l (fun s => { s with currentReplacement := none }) C.locals) } := by
            unfold counterAssign
            rw [hl]
          have hcur : List.lookup l (curOf C.locals) = some state.currentReplacement := by
            rw [lookup_curOf, hl]; rfl
          have hspec : specAssign newLocals (curOf C.locals) l =
              aupdate l (fun _ => none) (curOf C.locals) := by
            unfold specAssign
            rw [hcur]
          rw [hvis, hspec]
          refine ⟨?_, hnl, ?_⟩
          · exact curOf_aupdate l (fun s => { s with currentReplacement := none })
              (fun _ => none) (fun s => rfl) C.locals
          · intro L j
            exact recsOf_aupdate_current l (fun s => { s with currentReplacement := none })
              (fun s => rfl) C.locals L j
        | none =>
          have hcur : List.lookup l (curOf C.locals) = none := by
            rw [lookup_curOf, hl]; rfl
          cases hn : List.lookup l C.newLocals with
          | some oldLocal =>
            have hvis : counterAssign l C =
                { C with locals :=
                    (aupdate oldLocal (fun s => { s with currentReplacement := some l })
                      C.locals) } := by
              unfold counterAssign
              rw [hl, hn]
            have hspec : specAssign newLocals (curOf C.locals) l =
                aupdate oldLocal (fun _ => some l) (curOf C.locals) := by
              unfold specAssign
              rw [hcur, ← hnl, hn]
            rw [hvis, hspec]
            refine ⟨?_, hnl, ?_⟩
            · exact curOf_aupdate oldLocal (fun s => { s with currentReplacement := some l })
                (fun _ => some l) (fun s => rfl) C.locals
            · intro L j
              exact recsOf_aupdate_current oldLocal
                (fun s => { s with currentReplacement := some l }) (fun s => rfl) C.locals L j
          | none =>
            have hvis : counterAssign l C = C := by
              unfold counterAssign
              rw [hl, hn]
            have hspec : specAssign newLocals (curOf C.locals) l = curOf C.locals := by
              unfold specAssign
              rw [hcur, ← hnl, hn]
            rw [hvis, hspec]
            exact ⟨rfl, hnl, fun L j => rfl⟩
      obtain ⟨ha1, ha2, ha3⟩ := hassign
      obtain ⟨g1, g2, g3, g4⟩ := ih (counterAssign l C) ha2
      rw [ha1] at g1 g4
      refine ⟨?_, g2, ?_, ?_⟩
      · rw [hstep, hvisit, g1]
        simp only [specExec]
      · intro L j hj
        rw [hstep, hvisit, g3 L j hj, ha3 L j]
      · intro L
        rw [hstep, hvisit, g4 L, ha3 L k]
        simp only [specExec]
    | localTee l =>
      have hvisit : counterVisit k C (.localTee l) = counterAssign l C := rfl
      have hassign : curOf (counterAssign l C).locals =
          specAssign newLocals (curOf C.locals) l ∧
          (counterAssign l C).newLocals = newLocals ∧
          ∀ L j, recsOf (counterAssign l C).locals L j = recsOf C.locals L j := by
        cases hl : List.lookup l C.locals with
        | some state =>
          have hvis : counterAssign l C =
              { C with locals :=
                  (aupdate l (fun s => { s with currentReplacement := none }) C.locals) } := by
            unfold counterAssign
            rw [hl]
          have hcur : List.lookup l (curOf C.locals) = some state.currentReplacement := by
            rw [lookup_curOf, hl]; rfl
          have hspec : specAssign newLocals (curOf C.locals) l =
              aupdate l (fun _ => none) (curOf C.locals) := by
            unfold specAssign
            rw [hcur]
          rw [hvis, hspec]
          refine ⟨?_, hnl, ?_⟩
          · exact curOf_aupdate l (fun s => { s with currentReplacement := none })
              (fun _ => none) (fun s => rfl) C.locals
          · intro L j
            exact recsOf_aupdate_current l (fun s => { s with currentReplacement := none })
              (fun s => rfl) C.locals L j
        | none =>
          have hcur : List.lookup l (curOf C.locals) = none := by
            rw [lookup_curOf, hl]; rfl
          cases hn : List.lookup l C.newLocals with
          | some oldLocal =>
            have hvis : counterAssign l C =
                { C with locals :=
                    (aupdate oldLocal (fun s => { s with currentReplacement := some l })
                      C.locals) } := by
              unfold counterAssign
              rw [hl, hn]
            have hspec : specAssign newLocals (curOf C.locals) l =
                aupdate oldLocal (fun _ => some l) (curOf C.locals) := by
              unfold specAssign
              rw [hcur, ← hnl, hn]
            rw [hvis, hspec]
            refine ⟨?_, hnl, ?_⟩
            · exact curOf_aupdate oldLocal (fun s => { s with currentReplacement := some l })
                (fun _ => some l) (fun s => rfl) C.locals
            · intro L j
              exact recsOf_aupdate_current oldLocal
                (fun s => { s with currentReplacement := some l }) (fun s => rfl) C.locals L j
          | none =>
            have hvis : counterAssign l C = C := by
              unfold counterAssign
              rw [hl, hn]
            have hspec : specAssign newLocals (curOf C.locals) l = curOf C.locals := by
              unfold specAssign
              rw [hcur, ← hnl, hn]
            rw [hvis, hspec]
            exact ⟨rfl, hnl, fun L j => rfl⟩
      obtain ⟨ha1, ha2, ha3⟩ := hassign
      obtain ⟨g1, g2, g3, g4⟩ := ih (counterAssign l C) ha2
      rw [ha1] at g1 g4
      refine ⟨?_, g2, ?_, ?_⟩
      · rw [hstep, hvisit, g1]
        simp only [specExec]
      · intro L j hj
        rw [hstep, hvisit, g3 L j hj, ha3 L j]
      · intro L
        rw [hstep, hvisit, g4 L, ha3 L k]
        simp only [specExec]
    | call f =>
      have hvisit : counterVisit k C (.call f) = C := rfl
      obtain ⟨g1, g2, g3, g4⟩ := ih C hnl
      exact ⟨by rw [hstep, hvisit, g1]; rfl, g2,
        fun L j hj => by rw [hstep, hvisit, g3 L j hj],
        fun L => by rw [hstep, hvisit, g4 L]; rfl⟩
    | globalSet gl =>
      have hvisit : counterVisit k C (.globalSet gl) = C := rfl
      obtain ⟨g1, g2, g3, g4⟩ := ih C hnl
      exact ⟨by rw [hstep, hvisit, g1]; rfl, g2,
        fun L j hj => by rw [hstep, hvisit, g3 L j hj],
        fun L => by rw [hstep, hvisit, g4 L]; rfl⟩
    | other =>
      have hvisit : counterVisit k C .other = C := rfl
      obtain ⟨g1, g2, g3, g4⟩ := ih C hnl
      exact ⟨by rw [hstep, hvisit, g1]; rfl, g2,
        fun L j hj => by rw [hstep, hvisit, g3 L j hj],
        fun L => by rw [hstep, hvisit, g4 L]; rfl⟩

/-- Looking up in a value-mapped association list. -/
theorem lookup_map_value {α β : Type} (a : Nat) (g : α → β) (l : List (Nat × α)) :
    List.lookup a (l.map fun p => (p.1, g p.2)) = (List.lookup a l).map g := by
  induction l with
  | nil => rfl
  | cons p rest ih =>
    obtain ⟨k, v⟩ := p
    by_cases hk : a = k
    · subst hk
      simp [List.lookup]
    · have h1 : (a == k) = false := beq_eq_false_iff_ne.mpr hk
      simp [List.lookup, h1, ih]

/-- `aupdate` preserves which keys are present. -/
theorem lookup_isSome_aupdate {α : Type} (a b : Nat) (f : α → α) (l : List (Nat × α)) :
    (List.lookup b (aupdate a f l)).isSome = (List.lookup b l).isSome := by
  by_cases hb : b = a
  · subst hb
    rw [lookup_aupdate_self]
    cases List.lookup b l <;> rfl
  · rw [lookup_aupdate_ne hb]

/-- `specAssign` preserves which keys are present. -/
theorem lookup_isSome_specAssign (newLocals : List (Nat × Nat))
    (cur : List (Nat × Option Nat)) (l L : Nat) :
    (List.lookup L (specAssign newLocals cur l)).isSome =
      (List.lookup L cur).isSome := by
  unfold specAssign
  cases List.lookup l cur with
  | some v => exact lookup_isSome_aupdate l L _ cur
  | none =>
    cases List.lookup l newLocals with
    | some oldLocal => exact lookup_isSome_aupdate oldLocal L _ cur
    | none => rfl

/-- The spec pass preserves which keys are present in the substitutions. -/
theorem specExec_keys (newLocals : List (Nat × Nat)) (seq : InstrSeq)
    (cur : List (Nat × Option Nat)) (L : Nat) :
    (List.lookup L (specExec newLocals seq cur).2.2).isSome =
      (List.lookup L cur).isSome := by
  induction seq generalizing cur with
  | nil => rfl
  | cons li rest ih =>
    obtain ⟨i, loc⟩ := li
    cases i with
    | localGet l =>
      simp only [specExec]
      cases List.lookup l cur with
      | some v => exact ih cur
      | none => exact ih cur
    | localSet l =>
      simp only [specExec]
      rw [ih (specAssign newLocals cur l), lookup_isSome_specAssign]
    | localTee l =>
      simp only [specExec]
      rw [ih (specAssign newLocals cur l), lookup_isSome_specAssign]
    | call f => exact ih cur
    | globalSet g => exact ih cur
    | other => exact ih cur

/-- The spec trace preserves which keys are present in the substitutions. -/
theorem specEventsTrace_keys (newLocals : List (Nat × Nat)) (others : List InstrSeq)
    (cur : List (Nat × Option Nat)) (L : Nat) :
    (List.lookup L (specEventsTrace newLocals others cur).2).isSome =
      (List.lookup L cur).isSome := by
  induction others generalizing cur with
  | nil => rfl
  | cons s rest ih =>
    simp only [specEventsTrace]
    rw [ih, specExec_keys]

/-- `counterInit` with no reference parameters: substitutions all inactive. -/
theorem counterInit_curOf (newLocals : List (Nat × Nat)) :
    curOf (counterInit [] newLocals).locals = newLocals.map fun p => (p.2, none) := by
  simp [counterInit, curOf]

/-- `counterInit` with no reference parameters: no records yet. -/
theorem counterInit_recsOf (newLocals : List (Nat × Nat)) (L k : Nat) :
    recsOf (counterInit [] newLocals).locals L k = [] := by
  unfold counterInit recsOf
  simp only [List.foldl_nil]
  induction newLocals with
  | nil => rfl
  | cons p rest ih =>
    by_cases hL : L = p.2
    · subst hL
      simp [List.lookup]
    · have h1 : (L == p.2) = false := beq_eq_false_iff_ne.mpr hL
      simp only [List.map_cons, List.lookup, h1]
      exact ih

/-- The reversal step from counter records to replacer queues. -/
theorem replacerFrom_recsOf (C : CounterState) (L k : Nat) :
    recsOf (replacerFrom C) L k = (recsOf C.locals L k).reverse := by
  unfold replacerFrom recsOf
  have hmap := lookup_map_value L
    (fun s : LocalState =>
      ({ replacements := List.map (fun q => (q.1, q.2.reverse)) s.replacements,
         currentReplacement := s.currentReplacement } : LocalState))
    C.locals
  rw [hmap]
  cases List.lookup L C.locals with
  | none => rfl
  | some st =>
    simp only [Option.map_some']
    rw [lookup_map_value]
    cases List.lookup k st.replacements <;> rfl

/-- `replacerFrom` preserves which keys are present. -/
theorem replacerFrom_keys (C : CounterState) (L : Nat) :
    (List.lookup L (replacerFrom C)).isSome = (List.lookup L C.locals).isSome := by
  unfold replacerFrom
  have hmap := lookup_map_value L
    (fun s : LocalState =>
      ({ replacements := List.map (fun q => (q.1, q.2.reverse)) s.replacements,
         currentReplacement := s.currentReplacement } : LocalState))
    C.locals
  rw [hmap]
  cases List.lookup L C.locals <;> rfl

/-- `curOf` preserves which keys are present. -/
theorem curOf_keys (locals : List (Nat × LocalState)) (L : Nat) :
    (List.lookup L (curOf locals)).isSome = (List.lookup L locals).isSome := by
  rw [lookup_curOf]
  cases List.lookup L locals <;> rfl

/-- One sequence of `LocalReplacer` against the spec pass: when the queues of
this sequence hold exactly the reversed spec occurrences, the replacer
produces the spec rewrite, leaves other sequences' queues alone and preserves
the keys. -/
theorem replaceSeq_spec (newLocals : List (Nat × Nat)) (k : Nat) (seq : InstrSeq)
    (locals : List (Nat × LocalState)) (cur : List (Nat × Option Nat))
    (hkeys : ∀ L, (List.lookup L cur).isSome = (List.lookup L locals).isSome)
    (hq : ∀ L, recsOf locals L k =
      (((specExec newLocals seq cur).1.filter fun e => e.1 == L).map (·.2)).reverse) :
    (replaceSeq k seq locals).1 = (specExec newLocals seq cur).2.1 ∧
    (∀ L j, j ≠ k → recsOf (replaceSeq k seq locals).2 L j = recsOf locals L j) ∧
    (∀ L, (List.lookup L (replaceSeq k seq locals).2).isSome =
      (List.lookup L locals).isSome) := by
  induction seq generalizing locals cur with
  | nil => exact ⟨rfl, fun L j _ => rfl, fun L => rfl⟩
  | cons li rest ih =>
    obtain ⟨i, loc⟩ := li
    cases i with
    | localGet l =>
      cases hc : List.lookup l cur with
      | some v =>
        have hsome : (List.lookup l locals).isSome = true := by
          rw [← hkeys l, hc]; rfl
        obtain ⟨st, hst⟩ : ∃ st, List.lookup l locals = some st := by
          cases h : List.lookup l locals with
          | none => rw [h] at hsome; cases hsome
          | some st => exact ⟨st, rfl⟩
        have hql := hq l
        rw [recsOf, hst] at hql
        simp only [specExec, hc, List.filter_cons, beq_self_eq_true, if_true,
          List.map_cons, List.reverse_cons] at hql
        set X := (((specExec newLocals rest cur).1.filter fun e => e.1 == l).map
          (·.2)).reverse with hX
        obtain ⟨lst, hlst, hlstval⟩ :
            ∃ lst, List.lookup k st.replacements = some lst ∧ lst = X ++ [v] := by
          cases h : List.lookup k st.replacements with
          | none =>
            rw [h] at hql
            simp at hql
          | some lst =>
            rw [h] at hql
            exact ⟨lst, rfl, hql⟩
        have htake : takeReplacement k l locals =
            (v, aupdate l
              (fun s =>
                { s with replacements := aupdate k (fun _ => lst.dropLast) s.replacements })
              locals) := by
          unfold takeReplacement
          simp only [hst, hlst]
          subst hlstval
          rw [List.getLast?_concat]
          rfl
        have hdrop : lst.dropLast = X := by
          subst hlstval
          exact List.dropLast_concat
        -- the updated locals
        set locals' := aupdate l
          (fun s =>
            { s with replacements := aupdate k (fun _ => lst.dropLast) s.replacements })
          locals with hlocals'
        have hkeys' : ∀ L, (List.lookup L cur).isSome = (List.lookup L locals').isSome := by
          intro L
          rw [hlocals', lookup_isSome_aupdate, hkeys]
        have hq' : ∀ L, recsOf locals' L k =
            (((specExec newLocals rest cur).1.filter fun e => e.1 == L).map
              (·.2)).reverse := by
          intro L
          by_cases hL : L = l
          · subst hL
            rw [hlocals', recsOf, lookup_aupdate_self, hst]
            simp only [Option.map_some']
            rw [lookup_aupdate_self, hlst]
            simp only [Option.map_some', Option.getD_some]
            rw [hdrop, hX]
          · rw [hlocals', recsOf, lookup_aupdate_ne hL, ← recsOf, hq L]
            simp only [specExec, hc, List.filter_cons]
            have h1 : (l == L) = false := beq_eq_false_iff_ne.mpr fun h => hL h.symm
            simp [h1]
        obtain ⟨g1, g2, g3⟩ := ih locals' cur hkeys' hq'
        have hstep : replaceSeq k ((Instr.localGet l, loc) :: rest) locals =
            ((match v with
               | some n => (Instr.localGet n, loc)
               | none => (Instr.localGet l, loc)) :: (replaceSeq k rest locals').1,
              (replaceSeq k rest locals').2) := by
          simp only [replaceSeq, htake]
          cases v <;> rfl
        refine ⟨?_, ?_, ?_⟩
        · rw [hstep]
          simp only [specExec, hc, g1]
          cases v <;> rfl
        · intro L j hj
          rw [hstep]
          simp only
          rw [g2 L j hj]
          by_cases hL : L = l
          · subst hL
            rw [hlocals', recsOf, lookup_aupdate_self, hst]
            simp only [Option.map_some']
            rw [lookup_aupdate_ne hj]
            rw [recsOf]
            simp only [hst]
          · rw [hlocals', recsOf, lookup_aupdate_ne hL, ← recsOf]
        · intro L
          rw [hstep]
          simp only
          rw [g3 L, hlocals', lookup_isSome_aupdate]
      | none =>
        have hnone : List.lookup l locals = none := by
          have h := hkeys l
          rw [hc] at h
          cases hh : List.lookup l locals with
          | none => rfl
          | some st => rw [hh] at h; cases h
        have htake : takeReplacement k l locals = (none, locals) := by
          unfold takeReplacement
          simp only [hnone]
        have hq' : ∀ L, recsOf locals L k =
            (((specExec newLocals rest cur).1.filter fun e => e.1 == L).map
              (·.2)).reverse := by
          intro L
          rw [hq L]
          simp only [specExec, hc]
        obtain ⟨g1, g2, g3⟩ := ih locals cur hkeys hq'
        have hstep : replaceSeq k ((Instr.localGet l, loc) :: rest) locals =
            ((Instr.localGet l, loc) :: (replaceSeq k rest locals).1,
              (replaceSeq k rest locals).2) := by
          simp only [replaceSeq, htake]
        exact ⟨by rw [hstep]; simp only [specExec, hc, g1],
          fun L j hj => by rw [hstep]; exact g2 L j hj,
          fun L => by rw [hstep]; exact g3 L⟩
    | localSet l =>
      have hq' : ∀ L, recsOf locals L k =
          (((specExec newLocals rest (specAssign newLocals cur l)).1.filter
            fun e => e.1 == L).map (·.2)).reverse := by
        intro L
        rw [hq L]
        simp only [specExec]
      have hkeys' : ∀ L, (List.lookup L (specAssign newLocals cur l)).isSome =
          (List.lookup L locals).isSome := by
        intro L
        rw [lookup_isSome_specAssign, hkeys]
      obtain ⟨g1, g2, g3⟩ := ih locals (specAssign newLocals cur l) hkeys' hq'
      exact ⟨by simp only [replaceSeq, specExec, g1],
        fun L j hj => by simp only [replaceSeq]; exact g2 L j hj,
        fun L => by simp only [replaceSeq]; exact g3 L⟩
    | localTee l =>
      have hq' : ∀ L, recsOf locals L k =
          (((specExec newLocals rest (specAssign newLocals cur l)).1.filter
            fun e => e.1 == L).map (·.2)).reverse := by
        intro L
        rw [hq L]
        simp only [specExec]
      have hkeys' : ∀ L, (List.lookup L (specAssign newLocals cur l)).isSome =
          (List.lookup L locals).isSome := by
        intro L
        rw [lookup_isSome_specAssign, hkeys]
      obtain ⟨g1, g2, g3⟩ := ih locals (specAssign newLocals cur l) hkeys' hq'
      exact ⟨by simp only [replaceSeq, specExec, g1],
        fun L j hj => by simp only [replaceSeq]; exact g2 L j hj,
        fun L => by simp only [replaceSeq]; exact g3 L⟩
    | call f =>
      have hq' : ∀ L, recsOf locals L k =
          (((specExec newLocals rest cur).1.filter fun e => e.1 == L).map
            (·.2)).reverse := by
        intro L
        rw [hq L]
        simp only [specExec]
      obtain ⟨g1, g2, g3⟩ := ih locals cur hkeys hq'
      exact ⟨by simp only [replaceSeq, specExec, g1],
        fun L j hj => by simp only [replaceSeq]; exact g2 L j hj,
        fun L => by simp only [replaceSeq]; exact g3 L⟩
    | globalSet g =>
      have hq' : ∀ L, recsOf locals L k =
          (((specExec newLocals rest cur).1.filter fun e => e.1 == L).map
            (·.2)).reverse := by
        intro L
        rw [hq L]
        simp only [specExec]
      obtain ⟨g1, g2, g3⟩ := ih locals cur hkeys hq'
      exact ⟨by simp only [replaceSeq, specExec, g1],
        fun L j hj => by simp only [replaceSeq]; exact g2 L j hj,
        fun L => by simp only [replaceSeq]; exact g3 L⟩
    | other =>
      have hq' : ∀ L, recsOf locals L k =
          (((specExec newLocals rest cur).1.filter fun e => e.1 == L).map
            (·.2)).reverse := by
        intro L
        rw [hq L]
        simp only [specExec]
      obtain ⟨g1, g2, g3⟩ := ih locals cur hkeys hq'
      exact ⟨by simp only [replaceSeq, specExec, g1],
        fun L j hj => by simp only [replaceSeq]; exact g2 L j hj,
        fun L => by simp only [replaceSeq]; exact g3 L⟩

/-- The counter's fold over the non-entry sequences against the spec trace:
the `new_locals` map and substitutions are threaded, already-closed sequence
ids keep their records, and sequence `i + n` gains exactly the spec
occurrences of the `n`-th remaining sequence. -/
theorem counterFold_spec (newLocals : List (Nat × Nat)) (others : List InstrSeq)
    (i : Nat) (C : CounterState) (hnl : C.newLocals = newLocals) :
    (others.foldl counterFoldStep (i, C)).2.newLocals = newLocals ∧
    curOf (others.foldl counterFoldStep (i, C)).2.locals =
      (specEventsTrace newLocals others (curOf C.locals)).2 ∧
    (∀ L j, j < i → recsOf (others.foldl counterFoldStep (i, C)).2.locals L j =
      recsOf C.locals L j) ∧
    (∀ n L, recsOf (others.foldl counterFoldStep (i, C)).2.locals L (i + n) =
      recsOf C.locals L (i + n) ++
        (((specEventsTrace newLocals others (curOf C.locals)).1.getD n []).filter
          (fun e => e.1 == L)).map (·.2)) := by
  induction others generalizing i C with
  | nil =>
    refine ⟨hnl, rfl, fun L j _ => rfl, fun n L => by simp [specEventsTrace]⟩
  | cons s rest ih =>
    obtain ⟨c1, c2, c3, c4⟩ := counterSeq_spec newLocals i s C hnl
    obtain ⟨g1, g2, g3, g4⟩ := ih (i + 1) (counterSeq i C s) c2
    rw [c1] at g2 g4
    have hfold : List.foldl counterFoldStep (i, C) (s :: rest) =
        List.foldl counterFoldStep (i + 1, counterSeq i C s) rest := rfl
    refine ⟨?_, ?_, ?_, ?_⟩
    · rw [hfold]; exact g1
    · rw [hfold, g2]
      simp only [specEventsTrace]
    · intro L j hj
      rw [hfold, g3 L j (by omega), c3 L j (by omega)]
    · intro n L
      rw [hfold]
      cases n with
      | zero =>
        simp only [Nat.add_zero]
        rw [g3 L i (by omega), c4 L]
        simp only [specEventsTrace, List.getD_cons_zero]
      | succ m =>
        have harith : i + (m + 1) = i + 1 + m := by omega
        rw [harith, g4 m L, c3 L (i + 1 + m) (by omega)]
        simp only [specEventsTrace, List.getD_cons_succ]

/-- The replacer's fold over the non-entry sequences against the spec fold:
when the queues of sequence `i + n` hold exactly the reversed spec occurrences
of the `n`-th remaining sequence, the two folds produce the same rewritten
sequences. -/
theorem replaceFold_spec (newLocals : List (Nat × Nat)) (others : List InstrSeq)
    (i : Nat) (R : List (Nat × LocalState)) (cur : List (Nat × Option Nat))
    (acc : List InstrSeq)
    (hkeys : ∀ L, (List.lookup L cur).isSome = (List.lookup L R).isSome)
    (hq : ∀ n L, recsOf R L (i + n) =
      ((((specEventsTrace newLocals others cur).1.getD n []).filter
        (fun e => e.1 == L)).map (·.2)).reverse) :
    (others.foldl replaceFoldStep (acc, i, R)).1 =
      (others.foldl (specFoldStep newLocals) (acc, cur)).1 := by
  induction others generalizing acc i R cur with
  | nil => rfl
  | cons s rest ih =>
    have hq0 : ∀ L, recsOf R L i =
        (((specExec newLocals s cur).1.filter fun e => e.1 == L).map (·.2)).reverse := by
      intro L
      have h := hq 0 L
      rw [Nat.add_zero] at h
      simpa only [specEventsTrace, List.getD_cons_zero] using h
    obtain ⟨r1, r2, r3⟩ := replaceSeq_spec newLocals i s R cur hkeys hq0
    have hkeys' : ∀ L, (List.lookup L (specExec newLocals s cur).2.2).isSome =
        (List.lookup L (replaceSeq i s R).2).isSome := by
      intro L
      rw [specExec_keys, hkeys L]
      exact (r3 L).symm
    have hq' : ∀ n L, recsOf (replaceSeq i s R).2 L (i + 1 + n) =
        ((((specEventsTrace newLocals rest (specExec newLocals s cur).2.2).1.getD
          n []).filter (fun e => e.1 == L)).map (·.2)).reverse := by
      intro n L
      rw [r2 L (i + 1 + n) (by omega)]
      have h := hq (n + 1) L
      have harith : i + (n + 1) = i + 1 + n := by omega
      rw [harith] at h
      simpa only [specEventsTrace, List.getD_cons_succ] using h
    have hstep : List.foldl replaceFoldStep (acc, i, R) (s :: rest) =
        List.foldl replaceFoldStep
          ((replaceSeq i s R).1 :: acc, i + 1, (replaceSeq i s R).2) rest := rfl
    have hspec : List.foldl (specFoldStep newLocals) (acc, cur) (s :: rest) =
        List.foldl (specFoldStep newLocals)
          ((specExec newLocals s cur).2.1 :: acc, (specExec newLocals s cur).2.2)
          rest := rfl
    rw [hstep, hspec, r1]
    exact ih _ _ _ _ hkeys' hq'

/-- The locals-retyping plan as a whole refines the spec pass: counting the
`local.get` occurrences and then consuming the reversed queues rewrites every
body exactly as the one-pass specification does. -/
theorem plan_refines_spec (newLocals : List (Nat × Nat)) (body : FnBody) :
    replaceBody (counterBody [] newLocals body) body =
      specRewriteBody newLocals body := by
  have hinl : (counterInit [] newLocals).newLocals = newLocals := rfl
  obtain ⟨c1, c2, c3, c4⟩ :=
    counterSeq_spec newLocals 0 body.entry (counterInit [] newLocals) hinl
  rw [counterInit_curOf] at c1 c4
  simp only [counterInit_recsOf, List.nil_append] at c3 c4
  obtain ⟨g1, g2, g3, g4⟩ :=
    counterFold_spec newLocals body.others 1
      (counterSeq 0 (counterInit [] newLocals) body.entry) c2
  rw [c1] at g2 g4
  have hRkeys : ∀ L,
      (List.lookup L (newLocals.map fun p => (p.2, (none : Option Nat)))).isSome =
      (List.lookup L (replacerFrom
        (body.others.foldl counterFoldStep
          (1, counterSeq 0 (counterInit [] newLocals) body.entry)).2)).isSome := by
    intro L
    rw [replacerFrom_keys, ← curOf_keys, g2, specEventsTrace_keys, specExec_keys]
  have hRq : ∀ L,
      recsOf (replacerFrom
        (body.others.foldl counterFoldStep
          (1, counterSeq 0 (counterInit [] newLocals) body.entry)).2) L 0 =
      (((specExec newLocals body.entry
          (newLocals.map fun p => (p.2, (none : Option Nat)))).1.filter
        fun e => e.1 == L).map (·.2)).reverse := by
    intro L
    rw [replacerFrom_recsOf, g3 L 0 (by omega), c4 L]
  obtain ⟨r1, r2, r3⟩ :=
    replaceSeq_spec newLocals 0 body.entry
      (replacerFrom
        (body.others.foldl counterFoldStep
          (1, counterSeq 0 (counterInit [] newLocals) body.entry)).2)
      (newLocals.map fun p => (p.2, (none : Option Nat))) hRkeys hRq
  have hFkeys : ∀ L,
      (List.lookup L (specExec newLocals body.entry
        (newLocals.map fun p => (p.2, (none : Option Nat)))).2.2).isSome =
      (List.lookup L (replaceSeq 0 body.entry
        (replacerFrom
          (body.others.foldl counterFoldStep
            (1, counterSeq 0 (counterInit [] newLocals) body.entry)).2)).2).isSome := by
    intro L
    rw [specExec_keys, hRkeys L]
    exact (r3 L).symm
  have hFq : ∀ n L,
      recsOf (replaceSeq 0 body.entry
        (replacerFrom
          (body.others.foldl counterFoldStep
            (1, counterSeq 0 (counterInit [] newLocals) body.entry)).2)).2 L (1 + n) =
      ((((specEventsTrace newLocals body.others
          (specExec newLocals body.entry
            (newLocals.map fun p => (p.2, (none : Option Nat)))).2.2).1.getD
        n []).filter (fun e => e.1 == L)).map (·.2)).reverse := by
    intro n L
    rw [r2 L (1 + n) (by omega), replacerFrom_recsOf, g4 n L,
      c3 L (1 + n) (by omega), List.nil_append]
  have hfold :=
    replaceFold_spec newLocals body.others 1
      (replaceSeq 0 body.entry
        (replacerFrom
          (body.others.foldl counterFoldStep
            (1, counterSeq 0 (counterInit [] newLocals) body.entry)).2)).2
      (specExec newLocals body.entry
        (newLocals.map fun p => (p.2, (none : Option Nat)))).2.2
      [] hFkeys hFq
  simp only [replaceBody, counterBody, specRewriteBody]
  rw [r1, hfold]

/-- C6: the locals-retyping plan coincides with the one-pass specification on
every body — a `local.get` of an old local is redirected to the new reference
local exactly while a reference substitution is active, an integer
reassignment deactivates it until the next reference store, and occurrences
within a sequence are consumed in their original textual order. Concretely,
on a body "store reference-producing call into local 0; read local 0; store
integer into local 0; read local 0" the transformation redirects the first
store and the read under it to the single newly-allocated local 10 and leaves
the final read as an integer read of local 0. -/
theorem localGet_reassignment_spec :
    (∀ (newLocals : List (Nat × Nat)) (body : FnBody),
      replaceBody (counterBody [] newLocals body) body =
        specRewriteBody newLocals body) ∧
    transform_local_fn (fun f => f == 7) true none 10
        ⟨[(.call 7, some 0), (.localSet 0, some 1), (.localGet 0, some 2),
          (.other, some 3), (.localSet 0, some 4), (.localGet 0, some 5)], []⟩ =
      .ok (⟨[(.call 7, some 0), (.localSet 10, some 1), (.localGet 10, some 2),
          (.other, some 3), (.localSet 0, some 4), (.localGet 0, some 5)], []⟩, 11) :=
  ⟨plan_refines_spec, rfl⟩

end Externref
